import Mathlib

/-!
Verification development for the resilient structured-output acquisition
pipeline: the text sanitizer, truncation detector, payload extractor,
token ledger and attempt scheduler of the case-study generator service.
Strings are modelled as `List Char`; JavaScript numbers are modelled as
rationals extended with NaN and the two infinities.
-/

/-- The backtick character (U+0060). -/
def bt : Char := Char.ofNat 96

/-- The NUL character (U+0000). -/
def nulChar : Char := Char.ofNat 0

/-- Carriage return (U+000D). -/
def crChar : Char := Char.ofNat 13

/-- Line feed (U+000A). -/
def lfChar : Char := Char.ofNat 10

/-- The JavaScript whitespace class used by the regex `\s` and by
`String.prototype.trim`. -/
def isWs (c : Char) : Bool :=
  c == ' ' || c == Char.ofNat 9 || c == lfChar || c == Char.ofNat 11 ||
  c == Char.ofNat 12 || c == crChar || c == Char.ofNat 0xa0 ||
  c == Char.ofNat 0x1680 ||
  (decide (0x2000 ≤ c.toNat) && decide (c.toNat ≤ 0x200a)) ||
  c == Char.ofNat 0x2028 || c == Char.ofNat 0x2029 || c == Char.ofNat 0x202f ||
  c == Char.ofNat 0x205f || c == Char.ofNat 0x3000 || c == Char.ofNat 0xfeff

/-- Drop trailing JavaScript whitespace. -/
def dropTrailingWs (l : List Char) : List Char :=
  (l.reverse.dropWhile isWs).reverse

/-- `String.prototype.trim`: drop leading and trailing whitespace. -/
def jsTrim (l : List Char) : List Char :=
  dropTrailingWs (l.dropWhile isWs)

/-- Does the list start with a case-insensitive fenced `json` marker
(triple backtick followed by the letters j, s, o, n)? -/
def fenceJsonHead : List Char → Bool
  | a :: b :: c :: d :: e :: f :: g :: _ =>
    a == bt && b == bt && c == bt && d.toLower == 'j' && e.toLower == 's' &&
    f.toLower == 'o' && g.toLower == 'n'
  | _ => false

/-- Does the list start with a triple backtick? -/
def fenceHead : List Char → Bool
  | a :: b :: c :: _ => a == bt && b == bt && c == bt
  | _ => false

/-- Global left-to-right removal of the alternation of fence markers,
the semantics of `text.replace(/\x60\x60\x60json|\x60\x60\x60/gi, "")`:
at each position the longer alternative is tried first; on a match the
matched span is dropped and scanning resumes after it. -/
def stripFences : List Char → List Char
  | [] => []
  | c :: t =>
    if fenceJsonHead (c :: t) then
      match t with
      | _ :: _ :: _ :: _ :: _ :: _ :: t7 => stripFences t7
      | _ => []
    else if fenceHead (c :: t) then
      match t with
      | _ :: _ :: t3 => stripFences t3
      | _ => []
    else c :: stripFences t

/-- The greedy regex match for a brace span: from the first opening brace
through the last closing brace strictly after it, if any. -/
def braceSpan (l : List Char) : Option (List Char) :=
  match l.dropWhile (fun c => !(c == '{')) with
  | [] => none
  | c :: r =>
    if (r.reverse.dropWhile (fun c => !(c == '}'))).isEmpty then none
    else some (c :: (r.reverse.dropWhile (fun c => !(c == '}'))).reverse)

/-- If the text does not start with an opening brace, replace it by its
first greedy brace span when one exists; otherwise leave it unchanged. -/
def braceStep (l : List Char) : List Char :=
  if l.head? = some '{' then l
  else
    match braceSpan l with
    | some seg => seg
    | none => l

/-- Normalize line terminators: each carriage return, optionally followed
by a line feed, becomes a single line feed. -/
def normEol : List Char → List Char
  | [] => []
  | c :: d :: t =>
    if c = crChar then
      if d = lfChar then lfChar :: normEol t else lfChar :: normEol (d :: t)
    else c :: normEol (d :: t)
  | [c] => if c = crChar then [lfChar] else [c]

/-- The character-by-character trailing-comma remover, with the scanner
state (inside a string literal, previous char was an unconsumed escape).
A comma outside a string literal whose next non-whitespace character is a
closing brace or bracket is dropped together with that whitespace; the
source implements the drop by jumping the loop index past the
whitespace, compiled here as the extra `skip` state that consumes the
whitespace run before scanning resumes. -/
def rtcAux (ins esc skip : Bool) : List Char → List Char
  | [] => []
  | c :: t =>
    if skip ∧ isWs c then rtcAux ins esc true t
    else if esc then c :: rtcAux ins false false t
    else if c = '\\' then c :: rtcAux ins true false t
    else if c = '"' then c :: rtcAux (!ins) false false t
    else if ins = false ∧ c = ',' then
      match (t.dropWhile isWs).head? with
      | some nc =>
        if nc = '}' ∨ nc = ']' then rtcAux ins false true t
        else c :: rtcAux ins false false t
      | none => c :: rtcAux ins false false t
    else c :: rtcAux ins false false t

/-- `removeTrailingCommas` from the source: the scan starts outside any
string literal with no pending escape. -/
def removeTrailingCommas (l : List Char) : List Char :=
  rtcAux false false false l

/-- The sanitizer stages before the trailing-comma removal: fence
stripping, trim, brace-span isolation, EOL normalization, NUL removal. -/
def preRtc (l : List Char) : List Char :=
  (normEol (braceStep (jsTrim (stripFences l)))).filter (fun c => !(c == nulChar))

/-- `sanitizeJsonText` from the source: strip fence markers, trim,
isolate the brace span when the text does not start with an opening
brace, normalize EOLs, strip NUL characters, remove trailing commas, and
trim the result. -/
def sanitizeJsonText (l : List Char) : List Char :=
  jsTrim (removeTrailingCommas (preRtc l))

/-- The brace-balance scan of `hasBalancedDelimiters`: depth counting on
unescaped, out-of-string braces; fails as soon as the depth goes
negative; succeeds only when the final depth is zero and the scan does
not end inside a string literal. -/
def balAux (depth : Int) (ins esc : Bool) : List Char → Bool
  | [] => decide (depth = 0) && !ins
  | c :: t =>
    if esc then balAux depth ins false t
    else if c = '\\' then balAux depth ins true t
    else if c = '"' then balAux depth (!ins) false t
    else if ins then balAux depth ins false t
    else if c = '{' then balAux (depth + 1) ins false t
    else if c = '}' then
      (if depth - 1 < 0 then false else balAux (depth - 1) ins false t)
    else balAux depth ins false t

/-- `hasBalancedDelimiters` from the source. -/
def hasBalancedDelimiters (l : List Char) : Bool :=
  balAux 0 false false l

/-- `isLikelyTruncated` from the source: empty after trimming, or not
starting with an opening brace, or not ending with a closing brace, or
failing the brace-balance scan. -/
def isLikelyTruncated (l : List Char) : Bool :=
  let t := jsTrim l
  if t.isEmpty then true
  else if t.head? ≠ some '{' ∨ t.getLast? ≠ some '}' then true
  else !hasBalancedDelimiters t

/-- A JavaScript number: NaN, the two infinities, or a finite value
modelled as a rational. -/
inductive JsNum where
  | nan : JsNum
  | inf : JsNum
  | ninf : JsNum
  | fin (q : ℚ) : JsNum
deriving DecidableEq, Repr

/-- Kernel-computable addition on rationals (the library addition is
not definitionally reducible). -/
def qadd (a b : ℚ) : ℚ :=
  mkRat (a.num * b.den + b.num * a.den) (a.den * b.den)

/-- Kernel-computable subtraction on rationals. -/
def qsub (a b : ℚ) : ℚ :=
  mkRat (a.num * b.den - b.num * a.den) (a.den * b.den)

/-- Kernel-computable embedding of a natural number into the rationals. -/
def natQ (n : ℕ) : ℚ := mkRat n 1

/-- Kernel-computable embedding of an integer into the rationals. -/
def intQ (n : ℤ) : ℚ := mkRat n 1

/-- JavaScript addition. -/
def jadd : JsNum → JsNum → JsNum
  | .nan, _ => .nan
  | _, .nan => .nan
  | .inf, .ninf => .nan
  | .ninf, .inf => .nan
  | .inf, _ => .inf
  | _, .inf => .inf
  | .ninf, _ => .ninf
  | _, .ninf => .ninf
  | .fin a, .fin b => .fin (qadd a b)

/-- JavaScript subtraction. -/
def jsub : JsNum → JsNum → JsNum
  | .nan, _ => .nan
  | _, .nan => .nan
  | .inf, .inf => .nan
  | .ninf, .ninf => .nan
  | .inf, _ => .inf
  | _, .inf => .ninf
  | .ninf, _ => .ninf
  | _, .ninf => .inf
  | .fin a, .fin b => .fin (qsub a b)

/-- The JavaScript comparison `a <= b` (false whenever either side is
NaN). -/
def jleb : JsNum → JsNum → Bool
  | .nan, _ => false
  | _, .nan => false
  | .ninf, _ => true
  | _, .ninf => false
  | _, .inf => true
  | .inf, _ => false
  | .fin a, .fin b => decide (a ≤ b)

/-- The JavaScript comparison `a < b` (false whenever either side is
NaN). -/
def jltb : JsNum → JsNum → Bool
  | .nan, _ => false
  | _, .nan => false
  | .inf, _ => false
  | _, .inf => true
  | _, .ninf => false
  | .ninf, _ => true
  | .fin a, .fin b => decide (a < b)

/-- `Math.max` on two arguments: NaN-propagating maximum. -/
def jmax : JsNum → JsNum → JsNum
  | .nan, _ => .nan
  | _, .nan => .nan
  | .inf, _ => .inf
  | _, .inf => .inf
  | .ninf, b => b
  | a, .ninf => a
  | .fin a, .fin b => .fin (max a b)

/-- `Math.min` on two arguments: NaN-propagating minimum. -/
def jmin : JsNum → JsNum → JsNum
  | .nan, _ => .nan
  | _, .nan => .nan
  | .ninf, _ => .ninf
  | _, .ninf => .ninf
  | .inf, b => b
  | a, .inf => a
  | .fin a, .fin b => .fin (min a b)

/-- `Math.round`: half-up rounding toward positive infinity on finite
values (the floor of `q + 1/2`, computed on the reduced fraction),
identity on NaN and the infinities. -/
def jround : JsNum → JsNum
  | .fin q =>
    let h := qadd q (mkRat 1 2)
    .fin (intQ (Int.fdiv h.num h.den))
  | x => x

/-- `Number.isNaN`. -/
def jvIsNaN : JsNum → Bool
  | .nan => true
  | _ => false

/-- Is the number strictly negative (NaN is not negative)? -/
def jIsNeg : JsNum → Bool
  | .nan => false
  | .inf => false
  | .ninf => true
  | .fin q => decide (q < 0)

/-- A JavaScript value as seen by the pipeline: the result of a JSON
decode or a structured value received from the model library. -/
inductive JsValue where
  | null : JsValue
  | undef : JsValue
  | bool (b : Bool) : JsValue
  | num (n : JsNum) : JsValue
  | str (s : List Char) : JsValue
  | obj (fields : List (List Char × JsValue)) : JsValue
  | arr (items : List JsValue) : JsValue

/-- JavaScript truthiness. -/
def jsTruthy : JsValue → Bool
  | .null => false
  | .undef => false
  | .bool b => b
  | .num .nan => false
  | .num (.fin q) => decide (q ≠ 0)
  | .num _ => true
  | .str s => !s.isEmpty
  | .obj _ => true
  | .arr _ => true

/-- Last-binding lookup in an object's field list (the binding JSON
decoding keeps for duplicate keys). -/
def lookupField (fields : List (List Char × JsValue)) (k : List Char) :
    Option JsValue :=
  match fields.reverse.find? (fun p => p.1 == k) with
  | some p => some p.2
  | none => none

/-- JSON whitespace (the four characters the JSON grammar allows between
tokens). -/
def jsonWs (c : Char) : Bool :=
  c == ' ' || c == Char.ofNat 9 || c == lfChar || c == crChar

/-- A JSON decimal digit. -/
def isDigitChar (c : Char) : Bool :=
  decide (48 ≤ c.toNat) && decide (c.toNat ≤ 57)

/-- Value of a digit list read as a natural number. -/
def digitsVal (l : List Char) : ℕ :=
  l.foldl (fun a c => a * 10 + (c.toNat - 48)) 0

/-- A hexadecimal digit's value, if any. -/
def hexVal (c : Char) : Option ℕ :=
  if decide (48 ≤ c.toNat) && decide (c.toNat ≤ 57) then some (c.toNat - 48)
  else if decide (97 ≤ c.toNat) && decide (c.toNat ≤ 102) then some (c.toNat - 87)
  else if decide (65 ≤ c.toNat) && decide (c.toNat ≤ 70) then some (c.toNat - 55)
  else none

/-- Modelled from the spec: the body of a JSON string literal as decoded
by the platform JSON decoder (`JSON.parse`, not part of the repository
sources): ordinary characters excluding controls, quote and backslash,
plus the short escapes and `\uXXXX`. Returns the decoded characters and
the rest after the closing quote. -/
def parseStringBody : List Char → Option (List Char × List Char)
  | [] => none
  | c :: t =>
    if c = '"' then some ([], t)
    else if c = '\\' then
      match t with
      | [] => none
      | e :: t2 =>
        if e = '"' ∨ e = '\\' ∨ e = '/' then
          match parseStringBody t2 with
          | some (s, r) => some (e :: s, r)
          | none => none
        else if e = 'b' then
          match parseStringBody t2 with
          | some (s, r) => some (Char.ofNat 8 :: s, r)
          | none => none
        else if e = 'f' then
          match parseStringBody t2 with
          | some (s, r) => some (Char.ofNat 12 :: s, r)
          | none => none
        else if e = 'n' then
          match parseStringBody t2 with
          | some (s, r) => some (lfChar :: s, r)
          | none => none
        else if e = 'r' then
          match parseStringBody t2 with
          | some (s, r) => some (crChar :: s, r)
          | none => none
        else if e = 't' then
          match parseStringBody t2 with
          | some (s, r) => some (Char.ofNat 9 :: s, r)
          | none => none
        else if e = 'u' then
          match t2 with
          | h1 :: h2 :: h3 :: h4 :: t3 =>
            match hexVal h1, hexVal h2, hexVal h3, hexVal h4 with
            | some a, some b2, some c2, some d2 =>
              match parseStringBody t3 with
              | some (s, r) =>
                some (Char.ofNat (((a * 16 + b2) * 16 + c2) * 16 + d2) :: s, r)
              | none => none
            | _, _, _, _ => none
          | _ => none
        else none
    else if decide (c.toNat < 32) then none
    else
      match parseStringBody t with
      | some (s, r) => some (c :: s, r)
      | none => none

/-- Parse the integer/fraction/exponent tail of a JSON number after the
optional sign, returning its rational value. -/
def parseNumTail (l : List Char) : Option (ℚ × List Char) :=
  let intDigits := l.takeWhile isDigitChar
  let r1 := l.dropWhile isDigitChar
  if intDigits.isEmpty then none
  else if 1 < intDigits.length ∧ intDigits.head? = some '0' then none
  else
    let (fracVal, r2) :=
      match r1 with
      | '.' :: t =>
        let fd := t.takeWhile isDigitChar
        if fd.isEmpty then ((none : Option ℚ), r1)
        else
          (some ((digitsVal fd : ℚ) / ((10 : ℚ) ^ fd.length)),
           t.dropWhile isDigitChar)
      | _ => (none, r1)
    match fracVal, r2 with
    | none, '.' :: _ => none
    | fv, r2' =>
      let base : ℚ := (digitsVal intDigits : ℚ) + (fv.getD 0)
      match r2' with
      | e :: t =>
        if e = 'e' ∨ e = 'E' then
          let (sgn, t2) : ℚ × List Char :=
            match t with
            | '+' :: t3 => (1, t3)
            | '-' :: t3 => (-1, t3)
            | _ => (1, t)
          let ed := t2.takeWhile isDigitChar
          if ed.isEmpty then none
          else
            some (base * (10 : ℚ) ^ ((sgn.num : ℤ) * (digitsVal ed : ℤ)),
                  t2.dropWhile isDigitChar)
        else some (base, r2')
      | [] => some (base, [])

mutual

/-- Modelled from the spec: recursive-descent JSON value parser standing
in for the platform `JSON.parse` (not part of the repository sources).
Consumes one JSON value and returns the rest. -/
def parseValue : ℕ → List Char → Option (JsValue × List Char)
  | 0, _ => none
  | fuel + 1, l =>
    match l with
    | [] => none
    | c :: t =>
      if c = '{' then
        let t1 := t.dropWhile jsonWs
        match t1 with
        | '}' :: r => some (.obj [], r)
        | _ =>
          match parseMembers fuel t1 with
          | some (fs, r) => some (.obj fs, r)
          | none => none
      else if c = '[' then
        let t1 := t.dropWhile jsonWs
        match t1 with
        | ']' :: r => some (.arr [], r)
        | _ =>
          match parseElems fuel t1 with
          | some (vs, r) => some (.arr vs, r)
          | none => none
      else if c = '"' then
        match parseStringBody t with
        | some (s, r) => some (.str s, r)
        | none => none
      else if c = 't' then
        match t with
        | 'r' :: 'u' :: 'e' :: r => some (.bool true, r)
        | _ => none
      else if c = 'f' then
        match t with
        | 'a' :: 'l' :: 's' :: 'e' :: r => some (.bool false, r)
        | _ => none
      else if c = 'n' then
        match t with
        | 'u' :: 'l' :: 'l' :: r => some (.null, r)
        | _ => none
      else if c = '-' then
        match parseNumTail t with
        | some (q, r) => some (.num (.fin (-q)), r)
        | none => none
      else if isDigitChar c then
        match parseNumTail (c :: t) with
        | some (q, r) => some (.num (.fin q), r)
        | none => none
      else none

/-- One or more `"key": value` members separated by commas, the leading
whitespace already consumed. -/
def parseMembers : ℕ → List Char → Option (List (List Char × JsValue) × List Char)
  | 0, _ => none
  | fuel + 1, l =>
    match l with
    | '"' :: t =>
      match parseStringBody t with
      | some (k, r1) =>
        match r1.dropWhile jsonWs with
        | ':' :: r2 =>
          match parseValue fuel ((r2.dropWhile jsonWs)) with
          | some (v, r3) =>
            match r3.dropWhile jsonWs with
            | ',' :: r4 =>
              match parseMembers fuel (r4.dropWhile jsonWs) with
              | some (fs, r5) => some ((k, v) :: fs, r5)
              | none => none
            | '}' :: r4 => some ([(k, v)], r4)
            | _ => none
          | none => none
        | _ => none
      | none => none
    | _ => none

/-- One or more array elements separated by commas, the leading
whitespace already consumed. -/
def parseElems : ℕ → List Char → Option (List JsValue × List Char)
  | 0, _ => none
  | fuel + 1, l =>
    match parseValue fuel l with
    | some (v, r1) =>
      match r1.dropWhile jsonWs with
      | ',' :: r2 =>
        match parseElems fuel (r2.dropWhile jsonWs) with
        | some (vs, r3) => some (v :: vs, r3)
        | none => none
      | ']' :: r2 => some ([v], r2)
      | _ => none
    | none => none

end

/-- Modelled from the spec: the platform JSON decoder `JSON.parse`
applied to a whole text; `none` models a thrown `SyntaxError`. -/
def jsonParse (l : List Char) : Option JsValue :=
  match parseValue (l.length + 1) (l.dropWhile jsonWs) with
  | some (v, r) => if (r.dropWhile jsonWs).isEmpty then some v else none
  | none => none

/-- One history entry of the token ledger. -/
structure UsageRecord where
  timestamp : String
  tokens : JsNum
  topic : String
deriving DecidableEq, Repr

/-- The persisted ledger state: cumulative usage and bounded history. -/
structure TokenUsageState where
  used : JsNum
  history : List UsageRecord
deriving DecidableEq, Repr

/-- The snapshot shape returned by the ledger operations. -/
structure LedgerSnapshot where
  allowance : JsNum
  used : JsNum
  remaining : JsNum
deriving DecidableEq, Repr

/-- `getTokenSnapshot` from the source, with the environment-derived
token allowance as an explicit parameter:
`remaining = Math.max(0, allowance - used)`. -/
def getTokenSnapshot (alw : JsNum) (st : TokenUsageState) : LedgerSnapshot :=
  { allowance := alw
    used := st.used
    remaining := jmax (.fin 0) (jsub alw st.used) }

/-- `recordTokenUsage` from the source: a no-op returning the current
snapshot when `Number.isNaN(amount) || amount <= 0`; otherwise adds the
amount to `used`, prepends a record with the rounded amount, truncates
the history to 20 entries, and returns the new snapshot. The mutated
state is returned alongside the snapshot. -/
def recordTokenUsage (alw : JsNum) (amount : JsNum) (topic ts : String)
    (st : TokenUsageState) : LedgerSnapshot × TokenUsageState :=
  if jvIsNaN amount || jleb amount (.fin 0) then
    (getTokenSnapshot alw st, st)
  else
    let used' := jadd st.used amount
    let hist' := (({ timestamp := ts, tokens := jround amount,
                     topic := topic } : UsageRecord) :: st.history).take 20
    ({ allowance := alw, used := used',
       remaining := jmax (.fin 0) (jsub alw used') },
     { used := used', history := hist' })

/-- Decode a persisted ledger document. The source performs an unchecked
cast `JSON.parse(data) as TokenUsageState`; the well-shaped document (the
only shape the writer produces) is decoded faithfully, any other
parseable shape is outside the verified claims and decoded by defaults. -/
def decodeRecord (v : JsValue) : UsageRecord :=
  match v with
  | .obj fs =>
    { timestamp :=
        match lookupField fs ("timestamp".data) with
        | some (.str s) => String.mk s
        | _ => ""
      tokens :=
        match lookupField fs ("tokens".data) with
        | some (.num n) => n
        | _ => .nan
      topic :=
        match lookupField fs ("topic".data) with
        | some (.str s) => String.mk s
        | _ => "" }
  | _ => { timestamp := "", tokens := .nan, topic := "" }

/-- Decode the persisted state object (see `decodeRecord`). -/
def decodeState (v : JsValue) : TokenUsageState :=
  match v with
  | .obj fs =>
    { used :=
        match lookupField fs ("used".data) with
        | some (.num n) => n
        | _ => .nan
      history :=
        match lookupField fs ("history".data) with
        | some (.arr vs) => vs.map decodeRecord
        | _ => [] }
  | _ => { used := .nan, history := [] }

/-- `readState` from the source: a missing storage file is first created
with `used = 0` and empty history; a file whose contents fail to parse
is read as that same initial state; otherwise the parsed document is
cast to the state shape. -/
def readState (file : Option (List Char)) : TokenUsageState :=
  match file with
  | none => { used := .fin 0, history := [] }
  | some data =>
    match jsonParse data with
    | none => { used := .fin 0, history := [] }
    | some v => decodeState v

/-- Apply a list of `recordTokenUsage` calls (amount, topic, timestamp)
in order to a ledger state. -/
def applyCalls (alw : JsNum) (calls : List (JsNum × String × String))
    (st : TokenUsageState) : TokenUsageState :=
  match calls with
  | [] => st
  | (a, topic, ts) :: rest =>
    applyCalls alw rest (recordTokenUsage alw a topic ts st).2

/-- Is a usage amount a positive finite number? -/
def posFin : JsNum → Bool
  | .fin q => decide (0 < q)
  | _ => false

/-- The history record a `recordTokenUsage` call writes. -/
def mkRecord (c : JsNum × String × String) : UsageRecord :=
  { timestamp := c.2.2, tokens := jround c.1, topic := c.2.1 }

/-- The validated Business Model Canvas: the nine required string
fields, each trimmed. -/
structure Canvas where
  keyPartners : List Char
  keyActivities : List Char
  valuePropositions : List Char
  customerRelationships : List Char
  customerSegments : List Char
  keyResources : List Char
  channels : List Char
  costStructure : List Char
  revenueModel : List Char
deriving DecidableEq, Repr

/-- Modelled from the spec: the schema validator (`responseSchema
.safeParse`, built on the zod library which is not part of the
repository sources): the parsed value must be an object carrying all
nine required keys with string values; each string is trimmed; any
missing or non-string field rejects the whole value. -/
def canvasField (fs : List (List Char × JsValue)) (k : List Char) :
    Option (List Char) :=
  match lookupField fs k with
  | some (.str s) => some (jsTrim s)
  | _ => none

/-- See `canvasField`: the whole nine-field validation. -/
def canvasParse (v : JsValue) : Option Canvas :=
  match v with
  | .obj fs =>
    match canvasField fs ("keyPartners".data),
        canvasField fs ("keyActivities".data),
        canvasField fs ("valuePropositions".data),
        canvasField fs ("customerRelationships".data),
        canvasField fs ("customerSegments".data),
        canvasField fs ("keyResources".data),
        canvasField fs ("channels".data),
        canvasField fs ("costStructure".data),
        canvasField fs ("revenueModel".data) with
    | some a, some b, some c, some d, some e, some f, some g, some h, some i =>
      some { keyPartners := a, keyActivities := b, valuePropositions := c,
             customerRelationships := d, customerSegments := e,
             keyResources := f, channels := g, costStructure := h,
             revenueModel := i }
    | _, _, _, _, _, _, _, _, _ => none
  | _ => none

/-- A payload extracted from a model response: a raw string or an
already-structured value. -/
inductive ModelPayload where
  | str (s : List Char) : ModelPayload
  | obj (v : JsValue) : ModelPayload

/-- A function/tool call entry of a model response. -/
structure FnCall where
  args : JsValue

/-- A function-response part of a model response. -/
structure FnResponse where
  response : JsValue

/-- One content part: the source probes for a string `text` field, then
a truthy `functionCall`, then a truthy `functionResponse`. -/
structure ContentPart where
  text : Option (List Char)
  functionCall : Option FnCall
  functionResponse : Option FnResponse

/-- One response candidate (its content parts). -/
structure Candidate where
  parts : List ContentPart

/-- The opaque model response: `text()` (none models a throwing getter),
the optional `functionCalls()` method, and the candidate list. -/
structure GenResponse where
  textResult : Option (List Char)
  functionCalls : Option (List FnCall)
  candidates : List Candidate

/-- `extractFromArgs` from the source: falsy values yield nothing;
strings are trimmed and returned when non-empty; objects unwrap a nested
string or object `json` field, or are returned whole when they have at
least one key; anything else yields nothing. -/
def extractFromArgs (v : JsValue) : Option ModelPayload :=
  if !jsTruthy v then none
  else
    match v with
    | .str s =>
      let t := jsTrim s
      if t.isEmpty then none else some (.str t)
    | .obj fs =>
      match lookupField fs ("json".data) with
      | some (.str s) =>
        let t := jsTrim s
        if t.isEmpty then none else some (.str t)
      | some (.obj nfs) => some (.obj (.obj nfs))
      | some (.arr nvs) => some (.obj (.arr nvs))
      | _ =>
        if fs.isEmpty then none else some (.obj (.obj fs))
    | .arr vs =>
      if vs.isEmpty then none else some (.obj (.arr vs))
    | _ => none

/-- The function-call scan of `extractModelPayload`: the first call
whose arguments extract to a truthy payload. -/
def extractFromCalls : List FnCall → Option ModelPayload
  | [] => none
  | c :: rest =>
    match extractFromArgs c.args with
    | some p => some p
    | none => extractFromCalls rest

/-- The per-part probe of `extractModelPayload`'s candidate loop. -/
def extractFromPart (p : ContentPart) : Option ModelPayload :=
  match p.text with
  | some s =>
    let t := jsTrim s
    if t.isEmpty then none else some (.str t)
  | none =>
    match p.functionCall with
    | some fc => extractFromArgs fc.args
    | none =>
      match p.functionResponse with
      | some fr => extractFromArgs fr.response
      | none => none

/-- The candidate/part iteration of `extractModelPayload`. -/
def extractFromParts : List ContentPart → Option ModelPayload
  | [] => none
  | p :: rest =>
    match extractFromPart p with
    | some r => some r
    | none => extractFromParts rest

/-- See `extractFromParts`, over all candidates in order. -/
def extractFromCandidates : List Candidate → Option ModelPayload
  | [] => none
  | c :: rest =>
    match extractFromParts c.parts with
    | some r => some r
    | none => extractFromCandidates rest

/-- `extractModelPayload` from the source: the consolidated text when it
trims non-empty, else the first usable function-call arguments, else the
first usable content part, else nothing. -/
def extractModelPayload (r : GenResponse) : Option ModelPayload :=
  match r.textResult with
  | some s =>
    let t := jsTrim s
    if !t.isEmpty then some (.str t)
    else
      match r.functionCalls.bind extractFromCalls with
      | some p => some p
      | none => extractFromCandidates r.candidates
  | none =>
    match r.functionCalls.bind extractFromCalls with
    | some p => some p
    | none => extractFromCandidates r.candidates

/-- One attempt configuration of the scheduler. -/
structure AttemptConfig where
  compact : Bool
  maxOutputTokens : ℚ
  label : String

/-- The fixed two-entry attempt sequence: primary (2500 output tokens),
then compact (1500). -/
def attemptConfigs : List AttemptConfig :=
  [{ compact := false, maxOutputTokens := 2500, label := "primary" },
   { compact := true, maxOutputTokens := 1500, label := "compact" }]

/-- The outcome of one model invocation: a response together with the
billed token count, or a thrown error carrying an optional HTTP status. -/
inductive CallOutcome where
  | ok (resp : GenResponse) (tokensUsed : ℕ) : CallOutcome
  | threw (status : Option ℤ) : CallOutcome

/-- The response the route returns. -/
inductive ApiResponse where
  | success (canvas : Canvas) (tokensUsed : JsNum) (allowance : JsNum)
      (tokensRemaining : JsNum) : ApiResponse
  | failure (status : ℤ) (error : String) (allowance : JsNum) (used : JsNum)
      (remaining : JsNum) : ApiResponse

/-- The observable result of one pipeline run: the HTTP response, the
final ledger state, how many model calls were made, the accumulated
running token total at return, and the `recordTokenUsage` commits
(amount, label) performed, in order. -/
structure PipelineRun where
  response : ApiResponse
  ledger : TokenUsageState
  callsMade : ℕ
  total : JsNum
  events : List (JsNum × String)

/-- The default last-error message installed before the attempt loop. -/
def msgDefault : String :=
  "The AI response was not valid JSON. Please try generating the Business Model Canvas again."

/-- The in-loop budget-exhaustion message. -/
def msgLoopExhausted : String :=
  "Token allowance exhausted while generating the Business Model Canvas. Please refresh your allowance and try again."

/-- The pre-flight budget-exhaustion message. -/
def msgPreExhausted : String :=
  "Token allowance exhausted. Regenerate allowance before making new requests."

/-- The per-attempt empty-payload message. -/
def msgEmpty (compact : Bool) : String :=
  if compact then
    "The AI returned an empty response. Please try generating the Business Model Canvas again."
  else "The AI returned an empty response. Retrying with a more concise prompt."

/-- The per-attempt truncation message. -/
def msgTruncated (compact : Bool) : String :=
  if compact then
    "The AI response was incomplete even after retrying. Please try again."
  else "The AI response looked incomplete. Retrying with a more concise prompt."

/-- The per-attempt parse-failure message. -/
def msgParse (compact : Bool) : String :=
  if compact then
    "The AI response was still invalid JSON after retrying. Please try again."
  else "The AI response was not valid JSON. Retrying with a more concise prompt."

/-- The per-attempt schema-violation message. -/
def msgSchema (compact : Bool) : String :=
  if compact then
    "The AI response was missing required Business Model Canvas fields even after retrying. Please try again."
  else "The AI response was missing required Business Model Canvas fields. Retrying with a more concise prompt."

/-- The label suffix of a successful commit. -/
def successLabel (topic : String) : String :=
  topic ++ " (Business Model Canvas)"

/-- The label suffix of a failure commit. -/
def failLabel (topic : String) : String :=
  topic ++ " (Business Model Canvas - failed)"

/-- The post-loop epilogue: commit the accumulated total with the failed
label when it is positive, then return the last recorded error. -/
def failFinish (alw : JsNum) (topic ts : String) (total : JsNum) (msg : String)
    (status : ℤ) (led : TokenUsageState) (calls : ℕ) : PipelineRun :=
  if jltb (.fin 0) total then
    let r := recordTokenUsage alw total (failLabel topic) ts led
    { response := .failure status msg r.1.allowance r.1.used r.1.remaining
      ledger := r.2, callsMade := calls, total := total
      events := [(total, failLabel topic)] }
  else
    let snap := getTokenSnapshot alw led
    { response := .failure status msg snap.allowance snap.used snap.remaining
      ledger := led, callsMade := calls, total := total, events := [] }

/-- The catch-block epilogue for a thrown model call: commit the
accumulated total when positive, surface the thrown status (502 when
none), with the credentials message on a 400. -/
def catchFinish (alw : JsNum) (topic ts : String) (total : JsNum)
    (thrown : Option ℤ) (led : TokenUsageState) (calls : ℕ) : PipelineRun :=
  let status := thrown.getD 502
  let msg :=
    if status = 400 then
      "Gemini rejected the request. Confirm your API key is valid and has access to the selected model."
    else "Business Model Canvas generation failed. Please try again later."
  if jltb (.fin 0) total then
    let r := recordTokenUsage alw total (failLabel topic) ts led
    { response := .failure status msg r.1.allowance r.1.used r.1.remaining
      ledger := r.2, callsMade := calls, total := total
      events := [(total, failLabel topic)] }
  else
    let snap := getTokenSnapshot alw led
    { response := .failure status msg snap.allowance snap.used snap.remaining
      ledger := led, callsMade := calls, total := total, events := [] }

/-- How one extracted string payload fares before schema validation:
escalate to the next attempt, stop the loop (last attempt), or hand a
decoded value to the validator. -/
inductive StepOutcome where
  | continueWith (msg : String) : StepOutcome
  | breakWith (msg : String) : StepOutcome
  | decoded (v : JsValue) : StepOutcome

/-- Classify a payload: structured payloads go straight to validation;
string payloads are sanitized, truncation-checked and JSON-decoded, a
failure stopping the loop on the compact attempt and escalating
otherwise. -/
def classifyPayload (compact : Bool) : ModelPayload → StepOutcome
  | .obj v => .decoded v
  | .str s =>
    let san := sanitizeJsonText s
    if isLikelyTruncated san then
      if compact then .breakWith (msgTruncated true)
      else .continueWith (msgTruncated false)
    else
      match jsonParse san with
      | none =>
        if compact then .breakWith (msgParse true)
        else .continueWith (msgParse false)
      | some v => .decoded v

/-- The attempt loop of the scheduler (`for (const attempt of
attemptConfigs)`), with the environment `env` supplying the outcome of
the `n`-th model invocation. -/
def attemptLoop (alw : JsNum) (topic ts : String) (env : ℕ → CallOutcome) :
    List AttemptConfig → ℕ → JsNum → JsNum → String → ℤ → TokenUsageState →
    PipelineRun
  | [], n, _, total, msg, status, led => failFinish alw topic ts total msg status led n
  | cfg :: rest, n, avail, total, msg, status, led =>
    if jleb avail (.fin 0) then
      failFinish alw topic ts total msgLoopExhausted 429 led n
    else if jleb (jmin (.fin cfg.maxOutputTokens) avail) (.fin 0) then
      attemptLoop alw topic ts env rest n avail total msg status led
    else
      match env n with
      | .threw thrown => catchFinish alw topic ts total thrown led (n + 1)
      | .ok resp t =>
        let total' := jadd total (.fin (natQ t))
        let avail' := jmax (.fin 0) (jsub avail (.fin (natQ t)))
        match extractModelPayload resp with
        | none =>
          attemptLoop alw topic ts env rest (n + 1) avail' total'
            (msgEmpty cfg.compact) status led
        | some payload =>
          match classifyPayload cfg.compact payload with
          | .breakWith m => failFinish alw topic ts total' m status led (n + 1)
          | .continueWith m =>
            attemptLoop alw topic ts env rest (n + 1) avail' total' m status led
          | .decoded v =>
            match canvasParse v with
            | none =>
              if cfg.compact then
                failFinish alw topic ts total' (msgSchema true) status led (n + 1)
              else
                attemptLoop alw topic ts env rest (n + 1) avail' total'
                  (msgSchema false) status led
            | some canvas =>
              let r := recordTokenUsage alw total' (successLabel topic) ts led
              { response := .success canvas total' r.1.allowance r.1.remaining
                ledger := r.2, callsMade := n + 1, total := total'
                events := [(total', successLabel topic)] }

/-- The scheduler from `POST`, starting at the ledger pre-flight: a zero
remaining allowance short-circuits with a 429 before any model call;
otherwise the attempt loop runs with the snapshot's remaining tokens as
the visible budget. -/
def runPipeline (alw : JsNum) (topic ts : String) (env : ℕ → CallOutcome)
    (led : TokenUsageState) : PipelineRun :=
  let snap := getTokenSnapshot alw led
  if jleb snap.remaining (.fin 0) then
    { response := .failure 429 msgPreExhausted snap.allowance snap.used snap.remaining
      ledger := led, callsMade := 0, total := .fin 0, events := [] }
  else
    attemptLoop alw topic ts env attemptConfigs 0 snap.remaining (.fin 0)
      msgDefault 502 led

/-- The sum of the tokens billed by the first `n` model invocations of
an environment (a thrown invocation bills nothing the code can see). -/
def sumTokens (env : ℕ → CallOutcome) : ℕ → ℕ
  | 0 => 0
  | n + 1 =>
    sumTokens env n +
      (match env n with
       | .ok _ t => t
       | .threw _ => 0)

/-- The validation chain a payload must clear for the attempt to
succeed: structured payloads go straight ot the schema validator; string
payloads must sanitize to a non-truncated JSON-decodable text whose
decoded value validates. -/
def payloadCanvas (compact : Bool) (p : ModelPayload) : Option Canvas :=
  match classifyPayload compact p with
  | .decoded v => canvasParse v
  | _ => none

/-- The accounting invariant of a finished pipeline run: the running
total equals the tokens billed by the calls actually made, and a failure
response with a positive total has committed exactly that total to the
ledger under the failed label (and committed nothing otherwise). -/
def goodRun (alw : JsNum) (topic ts : String) (env : ℕ → CallOutcome)
    (led : TokenUsageState) (r : PipelineRun) : Prop :=
  r.total = .fin (sumTokens env r.callsMade) ∧
  (∀ s m a u rem, r.response = .failure s m a u rem →
      (jltb (.fin 0) r.total = true →
        r.events = [(r.total, failLabel topic)] ∧
        r.ledger = (recordTokenUsage alw r.total (failLabel topic) ts led).2) ∧
      (jltb (.fin 0) r.total = false → r.events = [] ∧ r.ledger = led))

/-- A concrete environment whose two calls both return the truncated
payload consisting of a single opening brace, billing 100 tokens each. -/
def envTruncated : ℕ → CallOutcome :=
  fun _ => .ok { textResult := some ['{'], functionCalls := none,
                 candidates := [] } 100

/-- A serialized nine-field canvas object used as a concrete model
payload. -/
def canvasJsonW : List Char :=
  '{' :: ("\"keyPartners\":\"x\",\"keyActivities\":\"x\",\"valuePropositions\":\"x\",\"customerRelationships\":\"x\",\"customerSegments\":\"x\",\"keyResources\":\"x\",\"channels\":\"x\",\"costStructure\":\"x\",\"revenueModel\":\"x\"").data ++ ['}']

/-- The canvas the concrete payload validates to. -/
def canvasW : Canvas :=
  { keyPartners := "x".data, keyActivities := "x".data,
    valuePropositions := "x".data, customerRelationships := "x".data,
    customerSegments := "x".data, keyResources := "x".data,
    channels := "x".data, costStructure := "x".data,
    revenueModel := "x".data }

/-- A concrete environment: the primary call returns a truncated payload
for 100 tokens, the compact call returns the valid canvas for 50. -/
def envC2 : ℕ → CallOutcome
  | 0 => .ok { textResult := some ['{'], functionCalls := none,
               candidates := [] } 100
  | _ => .ok { textResult := some canvasJsonW, functionCalls := none,
               candidates := [] } 50

/-- The brace-balance scanner state as a pure fold: depth, in-string and
escape flags, and a latch recording that the depth ever went negative. -/
structure BalState where
  depth : ℤ
  ins : Bool
  esc : Bool
  neg : Bool
deriving DecidableEq, Repr

/-- One step of the brace-balance scan as a total fold (no early exit;
a negative depth is latched in `neg`). -/
def balStep (st : BalState) (c : Char) : BalState :=
  if st.esc then { st with esc := false }
  else if c = '\\' then { st with esc := true }
  else if c = '"' then { st with ins := !st.ins }
  else if st.ins then st
  else if c = '{' then { st with depth := st.depth + 1 }
  else if c = '}' then
    { st with depth := st.depth - 1,
              neg := st.neg || decide (st.depth - 1 < 0) }
  else st

/-- The brace-balance scan as a left fold of `balStep`. -/
def balRun (st : BalState) (l : List Char) : BalState :=
  l.foldl balStep st

/-- Does the text contain a fence marker (a triple backtick) anywhere? -/
def hasFence : List Char → Bool
  | [] => false
  | c :: t => fenceHead (c :: t) || hasFence t

/-- The number of leading backticks. -/
def leadTicks : List Char → ℕ
  | [] => 0
  | c :: t => if c = bt then leadTicks t + 1 else 0

/-- The trailing-comma-free scan: fails exactly when it meets a comma
outside a string literal whose next non-whitespace character is a
closing brace or bracket, with the same string/escape handling as the
comma remover. -/
def tcfAux (ins esc : Bool) : List Char → Bool
  | [] => true
  | c :: t =>
    if esc then tcfAux ins false t
    else if c = '\\' then tcfAux ins true t
    else if c = '"' then tcfAux (!ins) false t
    else if ins = false ∧ c = ',' then
      match (t.dropWhile isWs).head? with
      | some nc => if nc = '}' ∨ nc = ']' then false else tcfAux ins false t
      | none => tcfAux ins false t
    else tcfAux ins false t

/-- The text has no comma, outside string literals, immediately followed
(after whitespace) by a closing brace or bracket. -/
def trailingCommaFree (l : List Char) : Bool :=
  tcfAux false false l

/-- The double-comma scan: fails exactly when it meets a comma outside a
string literal whose next non-whitespace character is another comma. -/
def ndcAux (ins esc : Bool) : List Char → Bool
  | [] => true
  | c :: t =>
    if esc then ndcAux ins false t
    else if c = '\\' then ndcAux ins true t
    else if c = '"' then ndcAux (!ins) false t
    else if ins = false ∧ c = ',' then
      match (t.dropWhile isWs).head? with
      | some nc => if nc = ',' then false else ndcAux ins false t
      | none => ndcAux ins false t
    else ndcAux ins false t

/-- The text has no comma, outside string literals, whose next
non-whitespace character is another comma. -/
def noDoubleComma (l : List Char) : Bool :=
  ndcAux false false l

/-- The out-of-string comma scan: fails on any comma outside a string
literal. -/
def oscAux (ins esc : Bool) : List Char → Bool
  | [] => true
  | c :: t =>
    if esc then oscAux ins false t
    else if c = '\\' then oscAux ins true t
    else if c = '"' then oscAux (!ins) false t
    else if ins = false ∧ c = ',' then false
    else oscAux ins false t

/-- Every comma of the text lies inside a string literal. -/
def commasInStrings (l : List Char) : Bool :=
  oscAux false false l

/-- Decodes as a JSON object: the whole text parses to an object value
under the modelled platform JSON decoder. -/
def isJsonObjectString (l : List Char) : Bool :=
  match jsonParse l with
  | some (.obj _) => true
  | _ => false

/-- The input whose sanitized form is a valid JSON object string that a
second sanitization nevertheless changes: a NUL between backticks inside
a string literal assembles into a fence marker. -/
def c9input : List Char :=
  '{' :: ("\"a\":\"").data ++ [bt, nulChar, bt, bt] ++ ['"', '}']

theorem length_dropWhile_ws_le (t : List Char) :
    (t.dropWhile isWs).length ≤ t.length :=
  (List.dropWhile_suffix isWs).sublist.length_le

theorem qadd_eq (a b : ℚ) : qadd a b = a + b := by
  have ha : ((a.den : ℚ)) ≠ 0 := Nat.cast_ne_zero.mpr a.den_nz
  have hb : ((b.den : ℚ)) ≠ 0 := Nat.cast_ne_zero.mpr b.den_nz
  rw [qadd, Rat.mkRat_eq_div]
  conv_rhs => rw [← Rat.num_div_den a, ← Rat.num_div_den b]
  rw [div_add_div _ _ ha hb]
  push_cast
  ring_nf

theorem qsub_eq (a b : ℚ) : qsub a b = a - b := by
  have ha : ((a.den : ℚ)) ≠ 0 := Nat.cast_ne_zero.mpr a.den_nz
  have hb : ((b.den : ℚ)) ≠ 0 := Nat.cast_ne_zero.mpr b.den_nz
  rw [qsub, Rat.mkRat_eq_div]
  conv_rhs => rw [← Rat.num_div_den a, ← Rat.num_div_den b]
  rw [div_sub_div _ _ ha hb]
  push_cast
  ring_nf

theorem natQ_eq (n : ℕ) : natQ n = (n : ℚ) := by
  rw [natQ, Rat.mkRat_eq_div]
  simp

theorem intQ_eq (n : ℤ) : intQ n = (n : ℚ) := by
  rw [intQ, Rat.mkRat_eq_div]
  simp

theorem jIsNeg_jmax_zero (x : JsNum) : jIsNeg (jmax (.fin 0) x) = false := by
  cases x with
  | nan => rfl
  | inf => rfl
  | ninf => rfl
  | fin q =>
    simp only [jmax, jIsNeg, decide_eq_false_iff_not]
    exact not_lt.mpr (le_max_left 0 q)

theorem recordTokenUsage_pos (alw a : JsNum) (topic ts : String)
    (st : TokenUsageState) (h : posFin a = true) :
    recordTokenUsage alw a topic ts st =
      ({ allowance := alw, used := jadd st.used a,
         remaining := jmax (.fin 0) (jsub alw (jadd st.used a)) },
       { used := jadd st.used a,
         history := (({ timestamp := ts, tokens := jround a,
                        topic := topic } : UsageRecord) :: st.history).take 20 }) := by
  cases a with
  | fin q =>
    have hq : (0 : ℚ) < q := by simpa [posFin] using h
    have hguard : (jvIsNaN (.fin q) || jleb (.fin q) (.fin 0)) = false := by
      simp [jvIsNaN, jleb]
      linarith
    simp [recordTokenUsage, hguard]
  | nan => simp [posFin] at h
  | inf => simp [posFin] at h
  | ninf => simp [posFin] at h

theorem take_append_take (n : ℕ) (A B : List UsageRecord) :
    List.take n (A ++ List.take n B) = List.take n (A ++ B) := by
  rcases le_or_lt n A.length with h | h
  · rw [List.take_append_of_le_length h, List.take_append_of_le_length h]
  · rw [List.take_append_eq_append_take, List.take_append_eq_append_take,
      List.take_take]
    congr 2
    omega

theorem applyCalls_history (alw : JsNum) (calls : List (JsNum × String × String))
    (st : TokenUsageState) (hpos : ∀ c ∈ calls, posFin c.1 = true)
    (hne : calls ≠ []) :
    (applyCalls alw calls st).history =
      List.take 20 ((calls.map mkRecord).reverse ++ st.history) := by
  induction calls generalizing st with
  | nil => exact absurd rfl hne
  | cons c cs ih =>
    obtain ⟨a, topic, ts⟩ := c
    have hc : posFin a = true := hpos (a, topic, ts) (by simp)
    have hstep := recordTokenUsage_pos alw a topic ts st hc
    rcases List.eq_nil_or_concat cs with hcs | _
    · subst hcs
      simp [applyCalls, hstep, mkRecord]
    · have hcs : cs ≠ [] := by
        rintro rfl
        simp_all
      have ihcs := ih ((recordTokenUsage alw a topic ts st).2)
        (fun d hd => hpos d (by simp [hd])) hcs
      rw [applyCalls, ihcs, hstep]
      simp only [List.map_cons, List.reverse_cons, mkRecord]
      rw [take_append_take, List.append_assoc]
      simp

/-- C6: after more than 20 recordUsage calls with positive finite
amounts, the history has length exactly 20 and holds the 20 most recent
records newest first; each such call prepends its record and truncates
to 20 entries. -/
theorem claim_C6 (alw : JsNum) (calls : List (JsNum × String × String))
    (st : TokenUsageState) (hlen : 20 < calls.length)
    (hpos : ∀ c ∈ calls, posFin c.1 = true) :
    (applyCalls alw calls st).history.length = 20 ∧
    (applyCalls alw calls st).history =
      ((calls.map mkRecord).reverse).take 20 ∧
    (∀ (amount : JsNum) (topic ts : String) (st' : TokenUsageState),
        posFin amount = true →
        (recordTokenUsage alw amount topic ts st').2.history =
          (({ timestamp := ts, tokens := jround amount,
              topic := topic } : UsageRecord) :: st'.history).take 20) := by
  have hne : calls ≠ [] := by
    rintro rfl
    simp at hlen
  have hmain := applyCalls_history alw calls st hpos hne
  have hrevlen : 20 ≤ ((calls.map mkRecord).reverse).length := by
    simp
    omega
  have htake : List.take 20 ((calls.map mkRecord).reverse ++ st.history) =
      List.take 20 ((calls.map mkRecord).reverse) :=
    List.take_append_of_le_length hrevlen
  refine ⟨?_, ?_, ?_⟩
  · rw [hmain, htake, List.length_take]
    simp
    omega
  · rw [hmain, htake]
  · intro amount topic ts st' hp
    rw [recordTokenUsage_pos alw amount topic ts st' hp]

theorem claim_C6_witness :
    (applyCalls (.fin 50000)
        (List.replicate 25 (JsNum.fin 100, "t", "ts"))
        { used := .fin 0, history := [] }).history.length = 20 :=
  (claim_C6 (.fin 50000) (List.replicate 25 (JsNum.fin 100, "t", "ts"))
    { used := .fin 0, history := [] } (by decide) (by decide)).1

/-- C5: the snapshot always reports `remaining = max(0, allowance -
used)` and is never negative, even after arbitrary recordUsage
sequences; a missing or unparseable persisted state is read as zero
usage with empty history. -/
theorem claim_C5 :
    (∀ (alw : JsNum) (st : TokenUsageState),
        (getTokenSnapshot alw st).remaining = jmax (.fin 0) (jsub alw st.used) ∧
        jIsNeg (getTokenSnapshot alw st).remaining = false) ∧
    (∀ (alw : JsNum) (calls : List (JsNum × String × String))
        (st : TokenUsageState),
        jIsNeg (getTokenSnapshot alw (applyCalls alw calls st)).remaining = false) ∧
    readState none = { used := .fin 0, history := [] } ∧
    (∀ s : List Char, jsonParse s = none →
        readState (some s) = { used := .fin 0, history := [] }) := by
  refine ⟨fun alw st => ⟨rfl, jIsNeg_jmax_zero _⟩,
    fun alw calls st => jIsNeg_jmax_zero _, rfl, fun s h => ?_⟩
  simp [readState, h]

theorem claim_C5_witness :
    jsonParse ['{'] = none ∧
    readState (some ['{']) = { used := .fin 0, history := [] } :=
  ⟨rfl, claim_C5.2.2.2 ['{'] rfl⟩

/-- C4 counterexample: the claim says `recordUsage` is a no-op for every
amount that is not a positive finite number; at amount = positive
infinity the code records the amount: `used` becomes infinity and a
history entry is written. -/
theorem claim_C4_counterexample :
    (recordTokenUsage (.fin 50000) .inf "x" "ts"
        { used := .fin 0, history := [] }).2.used = .inf ∧
    (recordTokenUsage (.fin 50000) .inf "x" "ts"
        { used := .fin 0, history := [] }).2.history.length = 1 := by
  exact ⟨rfl, rfl⟩

/-- C4 (amended): `recordUsage` is a no-op returning the current
snapshot exactly when the amount is NaN, zero or negative (including
negative infinity); positive infinity is not a no-op. -/
theorem claim_C4 (alw amount : JsNum) (topic ts : String)
    (st : TokenUsageState)
    (h : amount = .nan ∨ amount = .ninf ∨ ∃ q : ℚ, amount = .fin q ∧ q ≤ 0) :
    recordTokenUsage alw amount topic ts st = (getTokenSnapshot alw st, st) := by
  rcases h with h | h | ⟨q, hq, hle⟩
  · subst h
    rfl
  · subst h
    rfl
  · subst hq
    have : jleb (.fin q) (.fin 0) = true := by
      simpa [jleb] using hle
    simp [recordTokenUsage, this]

theorem claim_C4_witness :
    recordTokenUsage (.fin 50000) (.fin (-5)) "x" "ts"
        { used := .fin 7, history := [] } =
      (getTokenSnapshot (.fin 50000) { used := .fin 7, history := [] },
       { used := .fin 7, history := [] }) :=
  claim_C4 (.fin 50000) (.fin (-5)) "x" "ts" { used := .fin 7, history := [] }
    (Or.inr (Or.inr ⟨-5, rfl, by norm_num⟩))

/-- C3: a pre-flight snapshot with zero remaining tokens returns the
budget-exhausted 429 failure with no model invocation, no usage events
and an unchanged ledger. -/
theorem claim_C3 (alw : JsNum) (topic ts : String) (env : ℕ → CallOutcome)
    (led : TokenUsageState)
    (h : (getTokenSnapshot alw led).remaining = .fin 0) :
    runPipeline alw topic ts env led =
      { response := .failure 429 msgPreExhausted alw led.used (.fin 0)
        ledger := led, callsMade := 0, total := .fin 0, events := [] } := by
  have h' : jmax (.fin 0) (jsub alw led.used) = .fin 0 := h
  have hsnap : getTokenSnapshot alw led =
      { allowance := alw, used := led.used, remaining := JsNum.fin 0 } := by
    unfold getTokenSnapshot
    rw [h']
  simp only [runPipeline]
  rw [hsnap]
  simp [jleb]

theorem claim_C3_witness :
    runPipeline (.fin 50000) "t" "ts" (fun _ => .threw none)
        { used := .fin 50000, history := [] } =
      { response := .failure 429 msgPreExhausted (.fin 50000) (.fin 50000)
          (.fin 0)
        ledger := { used := .fin 50000, history := [] }, callsMade := 0,
        total := .fin 0, events := [] } :=
  claim_C3 (.fin 50000) "t" "ts" (fun _ => .threw none)
    { used := .fin 50000, history := [] } (by decide)

theorem failFinish_good (alw : JsNum) (topic ts : String)
    (env : ℕ → CallOutcome) (led : TokenUsageState) (total : JsNum)
    (msg : String) (status : ℤ) (k : ℕ)
    (htot : total = .fin (sumTokens env k)) :
    goodRun alw topic ts env led
      (failFinish alw topic ts total msg status led k) := by
  unfold goodRun failFinish
  split
  next hpos =>
    refine ⟨htot, fun s m a u rem hresp => ⟨fun _ => ⟨rfl, rfl⟩, fun hneg => ?_⟩⟩
    rw [hpos] at hneg
    cases hneg
  next hneg =>
    refine ⟨htot, fun s m a u rem hresp => ⟨fun hpos => ?_, fun _ => ⟨rfl, rfl⟩⟩⟩
    rw [eq_false_of_ne_true hneg] at hpos
    cases hpos

theorem catchFinish_good (alw : JsNum) (topic ts : String)
    (env : ℕ → CallOutcome) (led : TokenUsageState) (total : JsNum)
    (thrown : Option ℤ) (k : ℕ) (htot : total = .fin (sumTokens env k)) :
    goodRun alw topic ts env led
      (catchFinish alw topic ts total thrown led k) := by
  unfold goodRun catchFinish
  split
  next hpos =>
    refine ⟨htot, fun s m a u rem hresp => ⟨fun _ => ⟨rfl, rfl⟩, fun hneg => ?_⟩⟩
    rw [hpos] at hneg
    cases hneg
  next hneg =>
    refine ⟨htot, fun s m a u rem hresp => ⟨fun hpos => ?_, fun _ => ⟨rfl, rfl⟩⟩⟩
    rw [eq_false_of_ne_true hneg] at hpos
    cases hpos

theorem sumTokens_succ_ok (env : ℕ → CallOutcome) (n : ℕ)
    (resp : GenResponse) (t : ℕ) (henv : env n = .ok resp t) :
    (JsNum.fin (qadd ((sumTokens env n : ℕ) : ℚ) (natQ t))) =
      .fin (sumTokens env (n + 1)) := by
  rw [qadd_eq, natQ_eq]
  have : sumTokens env (n + 1) = sumTokens env n + t := by
    simp [sumTokens, henv]
  rw [this]
  push_cast
  ring_nf

theorem attemptLoop_good (alw : JsNum) (topic ts : String)
    (env : ℕ → CallOutcome) (led : TokenUsageState) :
    ∀ (configs : List AttemptConfig) (n : ℕ) (avail total : JsNum)
      (msg : String) (status : ℤ),
      total = .fin (sumTokens env n) →
      goodRun alw topic ts env led
        (attemptLoop alw topic ts env configs n avail total msg status led) := by
  intro configs
  induction configs with
  | nil =>
    intro n avail total msg status htot
    exact failFinish_good alw topic ts env led total msg status n htot
  | cons cfg rest ih =>
    intro n avail total msg status htot
    simp only [attemptLoop]
    split
    next => exact failFinish_good alw topic ts env led total msgLoopExhausted 429 n htot
    next =>
      split
      next => exact ih n avail total msg status htot
      next =>
        split
        next thrown henv =>
          exact catchFinish_good alw topic ts env led total thrown (n + 1)
            (by rw [htot]; simp [sumTokens, henv])
        next resp t henv =>
          have htot' : jadd total (.fin (natQ t)) = .fin (sumTokens env (n + 1)) := by
            rw [htot]
            simp only [jadd]
            exact sumTokens_succ_ok env n resp t henv
          split
          next => exact ih (n + 1) _ _ _ status htot'
          next payload hpay =>
            split
            next m hcls =>
              exact failFinish_good alw topic ts env led _ m status (n + 1) htot'
            next m hcls => exact ih (n + 1) _ _ _ status htot'
            next v hcls =>
              split
              next hcv =>
                split
                next =>
                  exact failFinish_good alw topic ts env led _ (msgSchema true)
                    status (n + 1) htot'
                next => exact ih (n + 1) _ _ _ status htot'
              next canvas hcv =>
                refine ⟨htot', fun s m a u rem hresp => ?_⟩
                cases hresp

/-- C1: across every run of the attempt scheduler the running total
equals the tokens billed by the model calls actually made (accumulated
whether or not an attempt succeeds), and every failure response with a
positive accumulated total has committed exactly that total to the
ledger under the failed label before the response is returned. -/
theorem claim_C1 (alw : JsNum) (topic ts : String) (env : ℕ → CallOutcome)
    (led : TokenUsageState) :
    ((runPipeline alw topic ts env led).total =
      .fin (sumTokens env (runPipeline alw topic ts env led).callsMade)) ∧
    (∀ s m a u rem,
        (runPipeline alw topic ts env led).response = .failure s m a u rem →
        jltb (.fin 0) (runPipeline alw topic ts env led).total = true →
        (runPipeline alw topic ts env led).events =
          [((runPipeline alw topic ts env led).total, failLabel topic)] ∧
        (runPipeline alw topic ts env led).ledger =
          (recordTokenUsage alw (runPipeline alw topic ts env led).total
            (failLabel topic) ts led).2) := by
  have hgood : goodRun alw topic ts env led (runPipeline alw topic ts env led) := by
    simp only [runPipeline]
    split
    next =>
      refine ⟨by norm_num [sumTokens], fun s m a u rem hresp => ⟨fun hpos => ?_, fun _ => ⟨rfl, rfl⟩⟩⟩
      cases hpos
    next =>
      exact attemptLoop_good alw topic ts env led attemptConfigs 0 _ _ msgDefault
        502 (by norm_num [sumTokens])
  exact ⟨hgood.1, fun s m a u rem hresp hpos =>
    (hgood.2 s m a u rem hresp).1 hpos⟩

theorem claim_C1_witness :
    ((runPipeline (.fin 50000) "t" "ts" envTruncated
        { used := .fin 0, history := [] }).response =
      .failure 502 (msgTruncated true) (.fin 50000) (.fin 200) (.fin 49800)) ∧
    (runPipeline (.fin 50000) "t" "ts" envTruncated
        { used := .fin 0, history := [] }).events =
      [((runPipeline (.fin 50000) "t" "ts" envTruncated
          { used := .fin 0, history := [] }).total, failLabel "t")] ∧
    (runPipeline (.fin 50000) "t" "ts" envTruncated
        { used := .fin 0, history := [] }).ledger =
      (recordTokenUsage (.fin 50000)
        (runPipeline (.fin 50000) "t" "ts" envTruncated
          { used := .fin 0, history := [] }).total
        (failLabel "t") "ts" { used := .fin 0, history := [] }).2 :=
  ⟨by rfl,
   (claim_C1 (.fin 50000) "t" "ts" envTruncated
      { used := .fin 0, history := [] }).2 502 (msgTruncated true)
     (.fin 50000) (.fin 200) (.fin 49800) (by rfl) (by rfl)⟩

theorem recordTokenUsage_allowance (alw x : JsNum) (topic ts : String)
    (st : TokenUsageState) :
    (recordTokenUsage alw x topic ts st).1.allowance = alw := by
  unfold recordTokenUsage
  split
  next => rfl
  next => rfl

/-- C2: when the primary attempt's payload is classified truncated and
the compact attempt's payload decodes and validates (with budget left
for the compact attempt), the scheduler succeeds with the compact
attempt's canvas and reports the sum of the tokens billed by the two
attempts. -/
theorem claim_C2 (alw : JsNum) (topic ts : String) (env : ℕ → CallOutcome)
    (led : TokenUsageState) (a : ℚ) (t1 t2 : ℕ)
    (r1 r2 : GenResponse) (p1 : List Char) (pay2 : ModelPayload) (c : Canvas)
    (hsnap : (getTokenSnapshot alw led).remaining = .fin a)
    (ha : 0 < a)
    (henv0 : env 0 = .ok r1 t1) (henv1 : env 1 = .ok r2 t2)
    (hx1 : extractModelPayload r1 = some (.str p1))
    (htr : isLikelyTruncated (sanitizeJsonText p1) = true)
    (hbudget : (t1 : ℚ) < a)
    (hx2 : extractModelPayload r2 = some pay2)
    (hval : payloadCanvas true pay2 = some c) :
    ∃ rem, (runPipeline alw topic ts env led).response =
      .success c (.fin ((t1 : ℚ) + (t2 : ℚ))) alw rem := by
  have hjleb_a : jleb (.fin a) (.fin 0) = false := by
    simp only [jleb, decide_eq_false_iff_not]
    exact not_le.mpr ha
  have hmin1 : jleb (jmin (.fin 2500) (.fin a)) (.fin 0) = false := by
    simp only [jmin, jleb, decide_eq_false_iff_not]
    exact not_le.mpr (lt_min (by norm_num) ha)
  have hsub : jsub (.fin a) (.fin (natQ t1)) = .fin (a - (t1 : ℚ)) := by
    simp [jsub, qsub_eq, natQ_eq]
  have havail : jmax (.fin 0) (jsub (.fin a) (.fin (natQ t1))) =
      .fin (a - (t1 : ℚ)) := by
    rw [hsub]
    simp only [jmax]
    rw [max_eq_right (by linarith)]
  have ha2 : (0 : ℚ) < a - (t1 : ℚ) := by linarith
  have hjleb_a2 : jleb (.fin (a - (t1 : ℚ))) (.fin 0) = false := by
    simp only [jleb, decide_eq_false_iff_not]
    exact not_le.mpr ha2
  have hmin2 : jleb (jmin (.fin 1500) (.fin (a - (t1 : ℚ)))) (.fin 0) = false := by
    simp only [jmin, jleb, decide_eq_false_iff_not]
    exact not_le.mpr (lt_min (by norm_num) ha2)
  have hcls1 : classifyPayload false (.str p1) =
      .continueWith (msgTruncated false) := by
    simp [classifyPayload, htr]
  obtain ⟨v, hcls2, hcv⟩ :
      ∃ v, classifyPayload true pay2 = .decoded v ∧ canvasParse v = some c := by
    unfold payloadCanvas at hval
    cases hcp : classifyPayload true pay2 with
    | decoded v =>
      rw [hcp] at hval
      exact ⟨v, rfl, hval⟩
    | continueWith m =>
      rw [hcp] at hval
      cases hval
    | breakWith m =>
      rw [hcp] at hval
      cases hval
  have htot : jadd (jadd (.fin 0) (.fin (natQ t1))) (.fin (natQ t2)) =
      .fin ((t1 : ℚ) + (t2 : ℚ)) := by
    simp [jadd, qadd_eq, natQ_eq]
  refine ⟨(recordTokenUsage alw (.fin ((t1 : ℚ) + (t2 : ℚ)))
    (successLabel topic) ts led).1.remaining, ?_⟩
  simp only [runPipeline, hsnap, hjleb_a, Bool.false_eq_true, if_false,
    attemptConfigs, attemptLoop, hmin1, henv0, hx1, hcls1, havail, hjleb_a2,
    hmin2, Nat.zero_add, henv1, hx2, hcls2, hcv, htot,
    recordTokenUsage_allowance]

set_option maxRecDepth 4000 in

theorem claim_C2_witness :
    ∃ rem, (runPipeline (.fin 50000) "t" "ts" envC2
        { used := .fin 0, history := [] }).response =
      .success canvasW (.fin (((100 : ℕ) : ℚ) + ((50 : ℕ) : ℚ)))
        (.fin 50000) rem :=
  claim_C2 (.fin 50000) "t" "ts" envC2 { used := .fin 0, history := [] }
    50000 100 50
    { textResult := some ['{'], functionCalls := none, candidates := [] }
    { textResult := some canvasJsonW, functionCalls := none, candidates := [] }
    ['{'] (.str (jsTrim canvasJsonW)) canvasW
    (by decide) (by norm_num) rfl rfl rfl (by rfl) (by norm_num) (by rfl)
    (by rfl)

theorem balRun_neg_mono (l : List Char) :
    ∀ st : BalState, st.neg = true → (balRun st l).neg = true := by
  induction l with
  | nil => intro st h; exact h
  | cons c t ih =>
    intro st h
    have hstep : (balStep st c).neg = true := by
      unfold balStep
      repeat' split
      all_goals simp_all
    exact ih (balStep st c) hstep

theorem balAux_eq_balRun (l : List Char) :
    ∀ (d : ℤ) (ins esc : Bool), 0 ≤ d →
      (balAux d ins esc l = true ↔
        ((balRun ⟨d, ins, esc, false⟩ l).neg = false ∧
         (balRun ⟨d, ins, esc, false⟩ l).depth = 0 ∧
         (balRun ⟨d, ins, esc, false⟩ l).ins = false)) := by
  induction l with
  | nil =>
    intro d ins esc hd
    simp [balAux, balRun]
  | cons c t ih =>
    intro d ins esc hd
    by_cases hesc : esc = true
    · subst hesc
      have hstep : balStep ⟨d, ins, true, false⟩ c = ⟨d, ins, false, false⟩ := by
        simp [balStep]
      rw [show balAux d ins true (c :: t) = balAux d ins false t by
            simp [balAux],
          show balRun ⟨d, ins, true, false⟩ (c :: t) =
            balRun (balStep ⟨d, ins, true, false⟩ c) t from rfl, hstep]
      exact ih d ins false hd
    · replace hesc : esc = false := by simpa using hesc
      subst hesc
      by_cases hbs : c = '\\'
      · subst hbs
        have hstep : balStep ⟨d, ins, false, false⟩ '\\' =
            ⟨d, ins, true, false⟩ := by
          simp [balStep]
        rw [show balAux d ins false ('\\' :: t) = balAux d ins true t by
              simp [balAux],
            show balRun ⟨d, ins, false, false⟩ ('\\' :: t) =
              balRun (balStep ⟨d, ins, false, false⟩ '\\') t from rfl, hstep]
        exact ih d ins true hd
      · by_cases hq : c = '"'
        · subst hq
          have hstep : balStep ⟨d, ins, false, false⟩ '"' =
              ⟨d, !ins, false, false⟩ := by
            simp [balStep, hbs]
          rw [show balAux d ins false ('"' :: t) = balAux d (!ins) false t by
                simp [balAux, hbs],
              show balRun ⟨d, ins, false, false⟩ ('"' :: t) =
                balRun (balStep ⟨d, ins, false, false⟩ '"') t from rfl, hstep]
          exact ih d (!ins) false hd
        · by_cases hins : ins = true
          · subst hins
            have hstep : balStep ⟨d, true, false, false⟩ c =
                ⟨d, true, false, false⟩ := by
              simp [balStep, hbs, hq]
            rw [show balAux d true false (c :: t) = balAux d true false t by
                  simp [balAux, hbs, hq],
                show balRun ⟨d, true, false, false⟩ (c :: t) =
                  balRun (balStep ⟨d, true, false, false⟩ c) t from rfl, hstep]
            exact ih d true false hd
          · replace hins : ins = false := by simpa using hins
            subst hins
            by_cases hob : c = '{'
            · subst hob
              have hstep : balStep ⟨d, false, false, false⟩ '{' =
                  ⟨d + 1, false, false, false⟩ := by
                simp [balStep, hbs, hq]
              rw [show balAux d false false ('{' :: t) =
                    balAux (d + 1) false false t by simp [balAux, hbs, hq],
                  show balRun ⟨d, false, false, false⟩ ('{' :: t) =
                    balRun (balStep ⟨d, false, false, false⟩ '{') t from rfl,
                  hstep]
              exact ih (d + 1) false false (by omega)
            · by_cases hcb : c = '}'
              · subst hcb
                by_cases hneg : d - 1 < 0
                · have hlhs : balAux d false false ('}' :: t) = false := by
                    simp [balAux, hbs, hq, hob, hneg]
                  have hstep : (balStep ⟨d, false, false, false⟩ '}').neg = true := by
                    simp [balStep, hbs, hq, hob]
                    omega
                  have hrun : (balRun ⟨d, false, false, false⟩ ('}' :: t)).neg = true := by
                    rw [show balRun ⟨d, false, false, false⟩ ('}' :: t) =
                      balRun (balStep ⟨d, false, false, false⟩ '}') t from rfl]
                    exact balRun_neg_mono t _ hstep
                  rw [hlhs]
                  simp [hrun]
                · have hstep : balStep ⟨d, false, false, false⟩ '}' =
                      ⟨d - 1, false, false, false⟩ := by
                    simp [balStep, hbs, hq, hob]
                    omega
                  rw [show balAux d false false ('}' :: t) =
                        balAux (d - 1) false false t by
                        simp [balAux, hbs, hq, hob, hneg],
                      show balRun ⟨d, false, false, false⟩ ('}' :: t) =
                        balRun (balStep ⟨d, false, false, false⟩ '}') t from rfl,
                      hstep]
                  exact ih (d - 1) false false (by omega)
              · have hstep : balStep ⟨d, false, false, false⟩ c =
                    ⟨d, false, false, false⟩ := by
                  simp [balStep, hbs, hq, hob, hcb]
                rw [show balAux d false false (c :: t) = balAux d false false t by
                      simp [balAux, hbs, hq, hob, hcb],
                    show balRun ⟨d, false, false, false⟩ (c :: t) =
                      balRun (balStep ⟨d, false, false, false⟩ c) t from rfl,
                    hstep]
                exact ih d false false hd

theorem balAux_string_transparent (inner : List Char) :
    ∀ (d : ℤ) (rest : List Char),
      (∀ c ∈ inner, c ≠ '"' ∧ c ≠ '\\') →
      balAux d true false (inner ++ rest) = balAux d true false rest := by
  induction inner with
  | nil => intro d rest _; rfl
  | cons c t ih =>
    intro d rest h
    obtain ⟨hq, hbs⟩ := h c (by simp)
    have : balAux d true false ((c :: t) ++ rest) =
        balAux d true false (t ++ rest) := by
      simp [balAux, hq, hbs]
    rw [this, ih d rest (fun x hx => h x (by simp [hx]))]

/-- C7: the truncation detector's concrete behavior on the four spec
inputs; any string empty after trimming or not starting with an opening
brace or not ending with a closing brace is truncated; the brace scan
ignores braces inside string literals; and the balance verdict holds
exactly when the scan never drove the depth negative, ends at depth
zero, and ends outside any string literal. -/
theorem claim_C7 :
    isLikelyTruncated [] = true ∧
    isLikelyTruncated ['{', '"', 'a', '"', ':', '"', 'b', '"', '}'] = false ∧
    isLikelyTruncated ['{', '"', 'a', '"', ':', '"', 'b'] = true ∧
    isLikelyTruncated ['{', '"', 'a', '"', ':', ' ', '"', 'b', '}', '"', '}'] =
      false ∧
    (∀ s : List Char,
        ((jsTrim s).head? ≠ some '{' ∨ (jsTrim s).getLast? ≠ some '}') →
        isLikelyTruncated s = true) ∧
    (∀ (d : ℤ) (inner rest : List Char),
        (∀ c ∈ inner, c ≠ '"' ∧ c ≠ '\\') →
        balAux d true false (inner ++ rest) = balAux d true false rest) ∧
    (∀ l : List Char,
        hasBalancedDelimiters l = true ↔
          ((balRun ⟨0, false, false, false⟩ l).neg = false ∧
           (balRun ⟨0, false, false, false⟩ l).depth = 0 ∧
           (balRun ⟨0, false, false, false⟩ l).ins = false)) := by
  refine ⟨rfl, rfl, rfl, rfl, fun s h => ?_, fun d inner rest h =>
    balAux_string_transparent inner d rest h, fun l =>
    balAux_eq_balRun l 0 false false le_rfl⟩
  simp only [isLikelyTruncated]
  split
  next => rfl
  next =>
    rfl

theorem claim_C7_witness :
    isLikelyTruncated ['x'] = true ∧
    balAux 1 true false (['b', '}'] ++ ['"', '}']) =
      balAux 1 true false ['"', '}'] :=
  ⟨claim_C7.2.2.2.2.1 ['x'] (by decide),
   claim_C7.2.2.2.2.2.1 1 ['b', '}'] ['"', '}'] (by decide)⟩

theorem dropWhile_head_not (p : Char → Bool) :
    ∀ (l : List Char) (c : Char), (l.dropWhile p).head? = some c → p c = false := by
  intro l
  induction l with
  | nil => intro c h; cases h
  | cons a t ih =>
    intro c h
    by_cases hp : p a = true
    · rw [List.dropWhile_cons_of_pos hp] at h
      exact ih c h
    · rw [List.dropWhile_cons_of_neg hp] at h
      cases h
      simpa using hp

theorem dropWhile_eq_self_of_head (p : Char → Bool) (l : List Char)
    (h : ∀ c, l.head? = some c → p c = false) : l.dropWhile p = l := by
  cases l with
  | nil => rfl
  | cons a t =>
    exact List.dropWhile_cons_of_neg (by simp [h a rfl])

theorem dropWhile_idem (p : Char → Bool) (l : List Char) :
    (l.dropWhile p).dropWhile p = l.dropWhile p := by
  apply dropWhile_eq_self_of_head
  intro c h
  exact dropWhile_head_not p l c h

theorem dropTrailingWs_split (l : List Char) :
    l = dropTrailingWs l ++ (l.reverse.takeWhile isWs).reverse ∧
    (∀ c ∈ (l.reverse.takeWhile isWs).reverse, isWs c = true) := by
  constructor
  · unfold dropTrailingWs
    rw [← List.reverse_append, List.takeWhile_append_dropWhile, List.reverse_reverse]
  · intro c hc
    rw [List.mem_reverse] at hc
    exact List.mem_takeWhile_imp hc

theorem dropTrailingWs_idem (l : List Char) :
    dropTrailingWs (dropTrailingWs l) = dropTrailingWs l := by
  unfold dropTrailingWs
  rw [List.reverse_reverse, dropWhile_idem]

theorem head?_dropTrailingWs (l : List Char) (c : Char)
    (h : (dropTrailingWs l).head? = some c) : l.head? = some c := by
  obtain ⟨hsplit, -⟩ := dropTrailingWs_split l
  conv_lhs => rw [hsplit]
  cases hz : dropTrailingWs l with
  | nil => rw [hz] at h; cases h
  | cons a t =>
    rw [hz] at h
    cases h
    simp [hz]

theorem jsTrim_idem (l : List Char) : jsTrim (jsTrim l) = jsTrim l := by
  unfold jsTrim
  have hlead : (dropTrailingWs (l.dropWhile isWs)).dropWhile isWs =
      dropTrailingWs (l.dropWhile isWs) := by
    apply dropWhile_eq_self_of_head
    intro c hc
    exact dropWhile_head_not isWs l c (head?_dropTrailingWs _ c hc)
  rw [hlead, dropTrailingWs_idem]

theorem trimmed_payload_ok (s0 s : List Char)
    (h : (if (jsTrim s0).isEmpty then (none : Option ModelPayload)
          else some (.str (jsTrim s0))) = some (.str s)) :
    s ≠ [] ∧ jsTrim s = s := by
  split at h
  · cases h
  · next hne =>
    cases h
    refine ⟨by simpa using hne, jsTrim_idem s0⟩

theorem extractFromArgs_str (v : JsValue) (s : List Char)
    (h : extractFromArgs v = some (.str s)) : s ≠ [] ∧ jsTrim s = s := by
  cases v with
  | null => simp [extractFromArgs, jsTruthy] at h
  | undef => simp [extractFromArgs, jsTruthy] at h
  | bool b =>
    cases b with
    | false => simp [extractFromArgs, jsTruthy] at h
    | true => simp [extractFromArgs, jsTruthy] at h
  | num n =>
    cases n with
    | nan => simp [extractFromArgs, jsTruthy] at h
    | inf => simp [extractFromArgs, jsTruthy] at h
    | ninf => simp [extractFromArgs, jsTruthy] at h
    | fin q =>
      by_cases hq : q = 0
      · subst hq
        simp [extractFromArgs, jsTruthy] at h
      · simp [extractFromArgs, jsTruthy, hq] at h
  | str s0 =>
    simp only [extractFromArgs] at h
    split at h
    · cases h
    · exact trimmed_payload_ok s0 s h
  | arr vs =>
    simp only [extractFromArgs] at h
    split at h
    · cases h
    · split at h
      · cases h
      · cases h
  | obj fs =>
    simp only [extractFromArgs] at h
    split at h
    · cases h
    · split at h
      next s0 _ => exact trimmed_payload_ok s0 s h
      next => cases h
      next => cases h
      next =>
        split at h
        · cases h
        · cases h

theorem extractFromCalls_str (calls : List FnCall) (s : List Char)
    (h : extractFromCalls calls = some (.str s)) : s ≠ [] ∧ jsTrim s = s := by
  induction calls with
  | nil => cases h
  | cons c rest ih =>
    unfold extractFromCalls at h
    split at h
    next p hp =>
      cases h
      exact extractFromArgs_str c.args s hp
    next => exact ih h

theorem extractFromPart_str (p : ContentPart) (s : List Char)
    (h : extractFromPart p = some (.str s)) : s ≠ [] ∧ jsTrim s = s := by
  unfold extractFromPart at h
  cases htx : p.text with
  | some s0 =>
    rw [htx] at h
    exact trimmed_payload_ok s0 s h
  | none =>
    rw [htx] at h
    cases hfc : p.functionCall with
    | some fc =>
      rw [hfc] at h
      exact extractFromArgs_str fc.args s h
    | none =>
      rw [hfc] at h
      cases hfr : p.functionResponse with
      | some fr =>
        rw [hfr] at h
        exact extractFromArgs_str fr.response s h
      | none =>
        rw [hfr] at h
        cases h

theorem extractFromParts_str (parts : List ContentPart) (s : List Char)
    (h : extractFromParts parts = some (.str s)) : s ≠ [] ∧ jsTrim s = s := by
  induction parts with
  | nil => cases h
  | cons p rest ih =>
    unfold extractFromParts at h
    split at h
    next r hr =>
      cases h
      exact extractFromPart_str p s hr
    next => exact ih h

theorem extractFromCandidates_str (cs : List Candidate) (s : List Char)
    (h : extractFromCandidates cs = some (.str s)) : s ≠ [] ∧ jsTrim s = s := by
  induction cs with
  | nil => cases h
  | cons c rest ih =>
    unfold extractFromCandidates at h
    split at h
    next r hr =>
      cases h
      exact extractFromParts_str c.parts s hr
    next => exact ih h

theorem extract_fallback_str (r : GenResponse) (s : List Char)
    (h : (match r.functionCalls.bind extractFromCalls with
          | some p => some p
          | none => extractFromCandidates r.candidates) = some (.str s)) :
    s ≠ [] ∧ jsTrim s = s := by
  split at h
  next p hp =>
    cases h
    cases hfc : r.functionCalls with
    | none => rw [hfc] at hp; cases hp
    | some calls =>
      rw [hfc] at hp
      exact extractFromCalls_str calls s hp
  next => exact extractFromCandidates_str r.candidates s h

/-- C10: whenever the payload extractor returns a string, that string is
non-empty and is its own trim, from every branch (primary text,
function-call arguments, nested json field, content-part iteration);
absence is only ever represented by null. -/
theorem claim_C10 (r : GenResponse) (s : List Char)
    (h : extractModelPayload r = some (.str s)) :
    s ≠ [] ∧ jsTrim s = s := by
  unfold extractModelPayload at h
  cases htr : r.textResult with
  | some s0 =>
    rw [htr] at h
    simp only [] at h
    by_cases hne : (jsTrim s0).isEmpty = true
    · rw [if_neg (by simp [hne])] at h
      exact extract_fallback_str r s h
    · rw [if_pos (by simp [hne])] at h
      cases h
      exact ⟨by simpa using hne, jsTrim_idem s0⟩
  | none =>
    rw [htr] at h
    exact extract_fallback_str r s h

theorem claim_C10_witness :
    (['{'] : List Char) ≠ [] ∧ jsTrim ['{'] = ['{'] :=
  claim_C10 { textResult := some [' ', '{'], functionCalls := none,
              candidates := [] } ['{'] (by rfl)

theorem fenceHead_eq (l : List Char) :
    fenceHead l = decide (3 ≤ leadTicks l) := by
  match l with
  | [] => rfl
  | [a] =>
    by_cases h : a = bt <;> simp [fenceHead, leadTicks, h]
  | [a, b] =>
    by_cases ha : a = bt <;> by_cases hb : b = bt <;>
      simp [fenceHead, leadTicks, ha, hb]
  | a :: b :: c :: t =>
    by_cases ha : a = bt <;> by_cases hb : b = bt <;> by_cases hc : c = bt <;>
      simp [fenceHead, leadTicks, ha, hb, hc] <;> omega

theorem fenceJsonHead_leadTicks (l : List Char) (h : fenceJsonHead l = true) :
    3 ≤ leadTicks l := by
  match l with
  | [] => simp [fenceJsonHead] at h
  | [a] => simp [fenceJsonHead] at h
  | [a, b] => simp [fenceJsonHead] at h
  | [a, b, c] => simp [fenceJsonHead] at h
  | [a, b, c, d] => simp [fenceJsonHead] at h
  | [a, b, c, d, e] => simp [fenceJsonHead] at h
  | [a, b, c, d, e, f] => simp [fenceJsonHead] at h
  | a :: b :: c :: d :: e :: f :: g :: t =>
    simp only [fenceJsonHead, Bool.and_eq_true, beq_iff_eq] at h
    obtain ⟨⟨⟨⟨⟨⟨ha, hb⟩, hc⟩, -⟩, -⟩, -⟩, -⟩ := h
    simp [leadTicks, ha, hb, hc]

theorem hasFence_cons_false {c : Char} {t : List Char}
    (h : hasFence (c :: t) = false) :
    fenceHead (c :: t) = false ∧ hasFence t = false := by
  simpa [hasFence] using h

theorem leadTicks_append_le (l u : List Char) :
    leadTicks l ≤ leadTicks (l ++ u) := by
  induction l with
  | nil => simp [leadTicks]
  | cons c t ih =>
    by_cases hc : c = bt <;> simp [leadTicks, hc]
    omega

theorem hasFence_append_left {l u : List Char}
    (h : hasFence (l ++ u) = false) : hasFence l = false := by
  induction l with
  | nil => rfl
  | cons c t ih =>
    rw [List.cons_append] at h
    obtain ⟨hf, ht⟩ := hasFence_cons_false h
    simp only [hasFence, ih ht, Bool.or_false]
    rw [fenceHead_eq] at hf ⊢
    simp only [decide_eq_false_iff_not] at hf ⊢
    intro h3
    exact hf (le_trans h3 (leadTicks_append_le (c :: t) u))

theorem hasFence_append_right {l u : List Char}
    (h : hasFence (l ++ u) = false) : hasFence u = false := by
  induction l with
  | nil => exact h
  | cons c t ih =>
    rw [List.cons_append] at h
    exact ih (hasFence_cons_false h).2

theorem hasFence_within {l m : List Char} (hinf : l <:+: m)
    (h : hasFence m = false) : hasFence l = false := by
  obtain ⟨u, v, hm⟩ := hinf
  subst hm
  rw [List.append_assoc] at h
  exact hasFence_append_left (hasFence_append_right h)

theorem stripFences_spec (l : List Char) :
    hasFence (stripFences l) = false ∧
    leadTicks (stripFences l) ≤ 2 ∧
    leadTicks (stripFences l) ≤ leadTicks l := by
  induction l using stripFences.induct with
  | case1 => exact ⟨rfl, by decide, by decide⟩
  | case2 c h1 h2 h3 h4 h5 h6 t7 hj ih =>
    obtain ⟨ihf, ih2, ihl⟩ := ih
    have hlt : 3 ≤ leadTicks (c :: h1 :: h2 :: h3 :: h4 :: h5 :: h6 :: t7) :=
      fenceJsonHead_leadTicks _ hj
    have hst : stripFences (c :: h1 :: h2 :: h3 :: h4 :: h5 :: h6 :: t7) =
        stripFences t7 := by
      rw [stripFences.eq_def]
      dsimp only
      rw [if_pos hj]
    rw [hst]
    exact ⟨ihf, ih2, by omega⟩
  | case3 c t hj hnone =>
    exfalso
    match t, hnone with
    | a :: b :: d :: e :: f :: g :: t7, hnone => exact hnone a b d e f g t7 rfl
    | [], _ => simp [fenceJsonHead] at hj
    | [a], _ => simp [fenceJsonHead] at hj
    | [a, b], _ => simp [fenceJsonHead] at hj
    | [a, b, d], _ => simp [fenceJsonHead] at hj
    | [a, b, d, e], _ => simp [fenceJsonHead] at hj
    | [a, b, d, e, f], _ => simp [fenceJsonHead] at hj
  | case4 c h1 h2 t3 hnj hf ih =>
    obtain ⟨ihf, ih2, ihl⟩ := ih
    have hlt : 3 ≤ leadTicks (c :: h1 :: h2 :: t3) := by
      rw [fenceHead_eq] at hf
      simpa using hf
    have hst : stripFences (c :: h1 :: h2 :: t3) = stripFences t3 := by
      rw [stripFences.eq_def]
      dsimp only
      rw [if_neg hnj, if_pos hf]
    rw [hst]
    exact ⟨ihf, ih2, by omega⟩
  | case5 c t hnj hf hnone =>
    exfalso
    have h3 : 3 ≤ leadTicks (c :: t) := by
      rw [fenceHead_eq] at hf
      simpa using hf
    match t, hnone with
    | a :: b :: t3, hnone => exact hnone a b t3 rfl
    | [], _ =>
      have hle : leadTicks [c] ≤ 1 := by
        by_cases hc : c = bt <;> simp [leadTicks, hc]
      omega
    | [a], _ =>
      have hle : leadTicks [c, a] ≤ 2 := by
        by_cases hc : c = bt <;> by_cases ha : a = bt <;>
          simp [leadTicks, hc, ha]
      omega
  | case6 c t hnj hnf ih =>
    obtain ⟨ihf, ih2, ihl⟩ := ih
    have hst : stripFences (c :: t) = c :: stripFences t := by
      rw [stripFences.eq_def]
      dsimp only
      rw [if_neg hnj, if_neg hnf]
    rw [hst]
    by_cases hc : c = bt
    · have hlt3 : ¬ 3 ≤ leadTicks (c :: t) := by
        rw [fenceHead_eq] at hnf
        simpa using hnf
      have hlt : leadTicks t ≤ 1 := by
        simp [leadTicks, hc] at hlt3
        omega
      refine ⟨?_, ?_, ?_⟩
      · simp only [hasFence, Bool.or_eq_false_iff]
        refine ⟨?_, ihf⟩
        rw [fenceHead_eq]
        simp only [decide_eq_false_iff_not]
        simp only [leadTicks, hc, if_pos]
        omega
      · simp only [leadTicks, hc, if_pos]
        omega
      · simp only [leadTicks, hc, if_pos]
        omega
    · refine ⟨?_, by simp [leadTicks, hc], by simp [leadTicks, hc]⟩
      simp only [hasFence, Bool.or_eq_false_iff]
      refine ⟨?_, ihf⟩
      rw [fenceHead_eq]
      simp [leadTicks, hc]

theorem mem_stripFences {c : Char} {l : List Char}
    (h : c ∈ stripFences l) : c ∈ l := by
  induction l using stripFences.induct with
  | case1 => cases h
  | case2 a h1 h2 h3 h4 h5 h6 t7 hj ih =>
    have hst : stripFences (a :: h1 :: h2 :: h3 :: h4 :: h5 :: h6 :: t7) =
        stripFences t7 := by
      rw [stripFences.eq_def]
      dsimp only
      rw [if_pos hj]
    rw [hst] at h
    simp [ih h]
  | case3 a t hj hnone =>
    exfalso
    match t, hnone with
    | x1 :: x2 :: x3 :: x4 :: x5 :: x6 :: t7, hnone =>
      exact hnone x1 x2 x3 x4 x5 x6 t7 rfl
    | [], _ => simp [fenceJsonHead] at hj
    | [a1], _ => simp [fenceJsonHead] at hj
    | [a1, a2], _ => simp [fenceJsonHead] at hj
    | [a1, a2, a3], _ => simp [fenceJsonHead] at hj
    | [a1, a2, a3, a4], _ => simp [fenceJsonHead] at hj
    | [a1, a2, a3, a4, a5], _ => simp [fenceJsonHead] at hj
  | case4 a h1 h2 t3 hnj hf ih =>
    have hst : stripFences (a :: h1 :: h2 :: t3) = stripFences t3 := by
      rw [stripFences.eq_def]
      dsimp only
      rw [if_neg hnj, if_pos hf]
    rw [hst] at h
    simp [ih h]
  | case5 a t hnj hf hnone =>
    exfalso
    have h3 : 3 ≤ leadTicks (a :: t) := by
      rw [fenceHead_eq] at hf
      simpa using hf
    match t, hnone with
    | x1 :: x2 :: t3, hnone => exact hnone x1 x2 t3 rfl
    | [], _ =>
      have hle : leadTicks [a] ≤ 1 := by
        by_cases hc : a = bt <;> simp [leadTicks, hc]
      omega
    | [x1], _ =>
      have hle : leadTicks [a, x1] ≤ 2 := by
        by_cases hc : a = bt <;> by_cases hx : x1 = bt <;>
          simp [leadTicks, hc, hx]
      omega
  | case6 a t hnj hnf ih =>
    have hst : stripFences (a :: t) = a :: stripFences t := by
      rw [stripFences.eq_def]
      dsimp only
      rw [if_neg hnj, if_neg hnf]
    rw [hst] at h
    rcases List.mem_cons.mp h with h | h
    · simp [h]
    · simp [ih h]

theorem jsTrim_within (l : List Char) : jsTrim l <:+: l := by
  obtain ⟨w, hw⟩ := (List.dropWhile_suffix isWs : _ <:+ l)
  obtain ⟨hsplit, -⟩ := dropTrailingWs_split (l.dropWhile isWs)
  refine ⟨w, (((l.dropWhile isWs).reverse.takeWhile isWs)).reverse, ?_⟩
  have hj : jsTrim l ++ ((l.dropWhile isWs).reverse.takeWhile isWs).reverse =
      l.dropWhile isWs := by
    unfold jsTrim
    exact hsplit.symm
  rw [List.append_assoc, hj, hw]

theorem braceSpan_within {l seg : List Char} (h : braceSpan l = some seg) :
    seg <:+: l := by
  unfold braceSpan at h
  split at h
  · cases h
  · next c r heq =>
    split at h
    · cases h
    · next hne =>
      cases h
      obtain ⟨w, hw⟩ :=
        (List.dropWhile_suffix (fun c => !(c == '{')) : _ <:+ l)
      rw [heq] at hw
      have hr : r = (r.reverse.dropWhile (fun c => !(c == '}'))).reverse ++
          (r.reverse.takeWhile (fun c => !(c == '}'))).reverse := by
        rw [← List.reverse_append, List.takeWhile_append_dropWhile,
          List.reverse_reverse]
      refine ⟨w, (r.reverse.takeWhile (fun c => !(c == '}'))).reverse, ?_⟩
      rw [← hw, List.append_assoc, List.cons_append]
      congr 2
      exact hr.symm

theorem braceStep_within (l : List Char) : braceStep l <:+: l := by
  unfold braceStep
  split
  · exact List.infix_refl l
  · split
    · next seg hseg => exact braceSpan_within hseg
    · exact List.infix_refl l

theorem mem_of_within {c : Char} {l m : List Char} (hinf : l <:+: m)
    (h : c ∈ l) : c ∈ m := by
  obtain ⟨u, v, rfl⟩ := hinf
  simp [h]

theorem leadTicks_normEol_le (l : List Char) :
    leadTicks (normEol l) ≤ leadTicks l := by
  induction l using normEol.induct with
  | case1 => simp [normEol]
  | case2 t ih =>
    have : normEol (crChar :: lfChar :: t) = lfChar :: normEol t := by
      simp [normEol]
    rw [this]
    simp [leadTicks, show lfChar ≠ bt from by decide,
      show crChar ≠ bt from by decide]
  | case3 d t hd ih =>
    have : normEol (crChar :: d :: t) = lfChar :: normEol (d :: t) := by
      simp [normEol, hd]
    rw [this]
    simp [leadTicks, show lfChar ≠ bt from by decide,
      show crChar ≠ bt from by decide]
  | case4 c d t hc ih =>
    have heq : normEol (c :: d :: t) = c :: normEol (d :: t) := by
      simp [normEol, hc]
    rw [heq]
    by_cases hb : c = bt
    · subst hb
      have h1 : leadTicks (bt :: d :: t) = leadTicks (d :: t) + 1 := by
        simp [leadTicks]
      have h2 : leadTicks (bt :: normEol (d :: t)) =
          leadTicks (normEol (d :: t)) + 1 := by
        simp [leadTicks]
      omega
    · simp [leadTicks, hb]
  | case5 =>
    simp [normEol, leadTicks, show lfChar ≠ bt from by decide,
      show crChar ≠ bt from by decide]
  | case6 c hc =>
    simp [normEol, hc, le_refl]

theorem hasFence_normEol {l : List Char} (h : hasFence l = false) :
    hasFence (normEol l) = false := by
  induction l using normEol.induct with
  | case1 => exact h
  | case2 t ih =>
    have he : normEol (crChar :: lfChar :: t) = lfChar :: normEol t := by
      simp [normEol]
    rw [he]
    have ht : hasFence t = false :=
      (hasFence_cons_false (hasFence_cons_false h).2).2
    simp only [hasFence, ih ht, Bool.or_false]
    rw [fenceHead_eq]
    simp [leadTicks, show lfChar ≠ bt from by decide]
  | case3 d t hd ih =>
    have he : normEol (crChar :: d :: t) = lfChar :: normEol (d :: t) := by
      simp [normEol, hd]
    rw [he]
    have ht : hasFence (d :: t) = false := (hasFence_cons_false h).2
    simp only [hasFence, ih ht, Bool.or_false]
    rw [fenceHead_eq]
    simp [leadTicks, show lfChar ≠ bt from by decide]
  | case4 c d t hc ih =>
    have he : normEol (c :: d :: t) = c :: normEol (d :: t) := by
      simp [normEol, hc]
    rw [he]
    have ht : hasFence (d :: t) = false := (hasFence_cons_false h).2
    simp only [hasFence, ih ht, Bool.or_false]
    rw [fenceHead_eq]
    simp only [decide_eq_false_iff_not]
    intro h3
    have hfc : fenceHead (c :: d :: t) = false := (hasFence_cons_false h).1
    rw [fenceHead_eq] at hfc
    simp only [decide_eq_false_iff_not] at hfc
    apply hfc
    by_cases hb : c = bt
    · subst hb
      have h1 : leadTicks (bt :: d :: t) = leadTicks (d :: t) + 1 := by
        simp [leadTicks]
      have h2 : leadTicks (bt :: normEol (d :: t)) =
          leadTicks (normEol (d :: t)) + 1 := by
        simp [leadTicks]
      have h4 := leadTicks_normEol_le (d :: t)
      omega
    · simp [leadTicks, hb] at h3
  | case5 => exact h
  | case6 c hc => simpa [normEol, hc] using h

theorem mem_normEol {c : Char} {l : List Char} (h : c ∈ normEol l) :
    c ∈ l ∨ c = lfChar := by
  induction l using normEol.induct with
  | case1 => cases h
  | case2 t ih =>
    rw [show normEol (crChar :: lfChar :: t) = lfChar :: normEol t from by
      simp [normEol]] at h
    rcases List.mem_cons.mp h with h | h
    · exact Or.inr h
    · rcases ih h with h | h
      · exact Or.inl (by simp [h])
      · exact Or.inr h
  | case3 d t hd ih =>
    rw [show normEol (crChar :: d :: t) = lfChar :: normEol (d :: t) from by
      simp [normEol, hd]] at h
    rcases List.mem_cons.mp h with h | h
    · exact Or.inr h
    · rcases ih h with h | h
      · exact Or.inl (by simp [List.mem_cons.mp h])
      · exact Or.inr h
  | case4 a d t ha ih =>
    rw [show normEol (a :: d :: t) = a :: normEol (d :: t) from by
      simp [normEol, ha]] at h
    rcases List.mem_cons.mp h with h | h
    · exact Or.inl (by simp [h])
    · rcases ih h with h | h
      · exact Or.inl (by simp [List.mem_cons.mp h])
      · exact Or.inr h
  | case5 =>
    rw [show normEol [crChar] = [lfChar] from by simp [normEol]] at h
    rcases List.mem_singleton.mp h with h
    exact Or.inr h
  | case6 a ha =>
    rw [show normEol [a] = [a] from by simp [normEol, ha]] at h
    exact Or.inl h

theorem cr_not_mem_normEol (l : List Char) : crChar ∉ normEol l := by
  induction l using normEol.induct with
  | case1 => simp [normEol]
  | case2 t ih =>
    rw [show normEol (crChar :: lfChar :: t) = lfChar :: normEol t from by
      simp [normEol]]
    simp only [List.mem_cons]
    rintro (h | h)
    · exact absurd h.symm (by decide)
    · exact ih h
  | case3 d t hd ih =>
    rw [show normEol (crChar :: d :: t) = lfChar :: normEol (d :: t) from by
      simp [normEol, hd]]
    simp only [List.mem_cons]
    rintro (h | h)
    · exact absurd h.symm (by decide)
    · exact ih h
  | case4 a d t ha ih =>
    rw [show normEol (a :: d :: t) = a :: normEol (d :: t) from by
      simp [normEol, ha]]
    simp only [List.mem_cons]
    rintro (h | h)
    · exact ha h.symm
    · exact ih h
  | case5 =>
    rw [show normEol [crChar] = [lfChar] from by simp [normEol]]
    simp only [List.mem_singleton]
    intro h
    exact absurd h.symm (by decide)
  | case6 a ha =>
    rw [show normEol [a] = [a] from by simp [normEol, ha]]
    simp only [List.mem_singleton]
    intro h
    exact ha h.symm

theorem rtcAux_skip_ws (ins esc : Bool) (c : Char) (t : List Char)
    (hws : isWs c = true) :
    rtcAux ins esc true (c :: t) = rtcAux ins esc true t := by
  rw [rtcAux.eq_def]
  dsimp only
  rw [if_pos ⟨rfl, hws⟩]

theorem rtcAux_esc (ins skip : Bool) (c : Char) (t : List Char)
    (h : ¬(skip = true ∧ isWs c = true)) :
    rtcAux ins true skip (c :: t) = c :: rtcAux ins false false t := by
  rw [rtcAux.eq_def]
  dsimp only
  rw [if_neg h, if_pos rfl]

theorem rtcAux_bs (ins skip : Bool) (t : List Char)
    (h : ¬(skip = true ∧ isWs '\\' = true)) :
    rtcAux ins false skip ('\\' :: t) = '\\' :: rtcAux ins true false t := by
  rw [rtcAux.eq_def]
  dsimp only
  rw [if_neg h, if_neg (by simp), if_pos rfl]

theorem rtcAux_quote (ins skip : Bool) (t : List Char)
    (h : ¬(skip = true ∧ isWs '"' = true)) :
    rtcAux ins false skip ('"' :: t) = '"' :: rtcAux (!ins) false false t := by
  rw [rtcAux.eq_def]
  dsimp only
  rw [if_neg h, if_neg (by simp), if_neg (by decide), if_pos rfl]

theorem rtcAux_comma_drop (skip : Bool) (t : List Char) (nc : Char)
    (h : ¬(skip = true ∧ isWs ',' = true))
    (hnc : (t.dropWhile isWs).head? = some nc)
    (hbr : nc = '}' ∨ nc = ']') :
    rtcAux false false skip (',' :: t) = rtcAux false false true t := by
  rw [rtcAux.eq_def]
  dsimp only
  rw [if_neg h, if_neg (by simp), if_neg (by decide), if_neg (by decide),
    if_pos ⟨rfl, rfl⟩, hnc]
  dsimp only
  rw [if_pos hbr]

theorem rtcAux_comma_emit (skip : Bool) (t : List Char) (nc : Char)
    (h : ¬(skip = true ∧ isWs ',' = true))
    (hnc : (t.dropWhile isWs).head? = some nc)
    (hbr : ¬(nc = '}' ∨ nc = ']')) :
    rtcAux false false skip (',' :: t) = ',' :: rtcAux false false false t := by
  rw [rtcAux.eq_def]
  dsimp only
  rw [if_neg h, if_neg (by simp), if_neg (by decide), if_neg (by decide),
    if_pos ⟨rfl, rfl⟩, hnc]
  dsimp only
  rw [if_neg hbr]

theorem rtcAux_comma_none (skip : Bool) (t : List Char)
    (h : ¬(skip = true ∧ isWs ',' = true))
    (hnc : (t.dropWhile isWs).head? = none) :
    rtcAux false false skip (',' :: t) = ',' :: rtcAux false false false t := by
  rw [rtcAux.eq_def]
  dsimp only
  rw [if_neg h, if_neg (by simp), if_neg (by decide), if_neg (by decide),
    if_pos ⟨rfl, rfl⟩, hnc]

theorem rtcAux_other (ins skip : Bool) (c : Char) (t : List Char)
    (h : ¬(skip = true ∧ isWs c = true))
    (hbs : c ≠ '\\') (hq : c ≠ '"') (hcm : ¬(ins = false ∧ c = ',')) :
    rtcAux ins false skip (c :: t) = c :: rtcAux ins false false t := by
  rw [rtcAux.eq_def]
  dsimp only
  rw [if_neg h, if_neg (by simp), if_neg hbs, if_neg hq, if_neg hcm]

theorem rtcAux_skip_eq (l : List Char) :
    ∀ (ins esc : Bool),
      rtcAux ins esc true l = rtcAux ins esc false (l.dropWhile isWs) := by
  induction l with
  | nil => intro ins esc; rfl
  | cons c t ih =>
    intro ins esc
    by_cases hws : isWs c = true
    · rw [rtcAux_skip_ws ins esc c t hws, List.dropWhile_cons_of_pos hws]
      exact ih ins esc
    · rw [List.dropWhile_cons_of_neg (by simpa using hws)]
      rw [rtcAux.eq_def, rtcAux.eq_def]
      dsimp only
      rw [if_neg (show ¬(true = true ∧ isWs c = true) by simp [hws]),
        if_neg (show ¬(false = true ∧ isWs c = true) by simp)]

theorem hasFence_dropWhile {t : List Char} (h : hasFence t = false) :
    hasFence (t.dropWhile isWs) = false := by
  obtain ⟨w, hw⟩ := (List.dropWhile_suffix isWs : _ <:+ t)
  rw [← hw] at h
  exact hasFence_append_right h

theorem nc_facts {nc : Char} (hbr : nc = '}' ∨ nc = ']') :
    nc ≠ '\\' ∧ nc ≠ '"' ∧ nc ≠ ',' ∧ nc ≠ bt := by
  rcases hbr with h | h <;> subst h <;> refine ⟨by decide, by decide, by decide, by decide⟩

theorem leadTicks_rtc_le :
    ∀ (n : ℕ) (l : List Char), l.length ≤ n → ∀ (ins esc : Bool),
      leadTicks (rtcAux ins esc false l) ≤ leadTicks l := by
  intro n
  induction n with
  | zero =>
    intro l hl ins esc
    have hnil : l = [] := List.length_eq_zero.mp (Nat.le_zero.mp hl)
    subst hnil
    exact le_refl _
  | succ n ih =>
    intro l hl ins esc
    match l with
    | [] => exact le_refl _
    | c :: t =>
      have hlt : t.length ≤ n := by
        simp only [List.length_cons] at hl
        omega
      by_cases hesc : esc = true
      · subst hesc
        rw [rtcAux_esc ins false c t (by simp)]
        by_cases hb : c = bt
        · subst hb
          simp only [leadTicks, if_pos]
          have := ih t hlt ins false
          omega
        · simp [leadTicks, hb]
      · replace hesc : esc = false := by simpa using hesc
        subst hesc
        by_cases hbs : c = '\\'
        · subst hbs
          rw [rtcAux_bs ins false t (by simp)]
          simp [leadTicks, show ('\\' : Char) ≠ bt from by decide]
        · by_cases hq : c = '"'
          · subst hq
            rw [rtcAux_quote ins false t (by simp)]
            simp [leadTicks, show ('"' : Char) ≠ bt from by decide]
          · by_cases hcm : ins = false ∧ c = ','
            · obtain ⟨hins, hc⟩ := hcm
              subst hins
              subst hc
              cases hdw : (t.dropWhile isWs).head? with
              | none =>
                rw [rtcAux_comma_none false t (by simp) hdw]
                simp [leadTicks, show (',' : Char) ≠ bt from by decide]
              | some nc =>
                by_cases hbr : nc = '}' ∨ nc = ']'
                · rw [rtcAux_comma_drop false t nc (by simp) hdw hbr,
                    rtcAux_skip_eq]
                  obtain ⟨hncbs, hncq, hnccm, hncbt⟩ := nc_facts hbr
                  cases hdw2 : t.dropWhile isWs with
                  | nil =>
                    rw [hdw2] at hdw
                    cases hdw
                  | cons nc' t2 =>
                    rw [hdw2] at hdw
                    simp only [List.head?_cons, Option.some.injEq] at hdw
                    subst hdw
                    rw [rtcAux_other false false nc' t2 (by simp) hncbs hncq
                      (by simp [hnccm])]
                    simp [leadTicks, hncbt]
                · rw [rtcAux_comma_emit false t nc (by simp) hdw hbr]
                  simp [leadTicks, show (',' : Char) ≠ bt from by decide]
            · rw [rtcAux_other ins false c t (by simp) hbs hq hcm]
              by_cases hb : c = bt
              · subst hb
                simp only [leadTicks, if_pos]
                have := ih t hlt ins false
                omega
              · simp [leadTicks, hb]

theorem hasFence_cons_of {c : Char} {t' out' : List Char}
    (hlt : leadTicks out' ≤ leadTicks t')
    (hout : hasFence out' = false)
    (hl : fenceHead (c :: t') = false) :
    hasFence (c :: out') = false := by
  simp only [hasFence, hout, Bool.or_false]
  rw [fenceHead_eq] at hl ⊢
  simp only [decide_eq_false_iff_not] at hl ⊢
  intro h3
  apply hl
  by_cases hb : c = bt
  · subst hb
    have h1 : leadTicks (bt :: t') = leadTicks t' + 1 := by simp [leadTicks]
    have h2 : leadTicks (bt :: out') = leadTicks out' + 1 := by
      simp [leadTicks]
    omega
  · simp [leadTicks, hb] at h3

theorem hasFence_rtc :
    ∀ (n : ℕ) (l : List Char), l.length ≤ n → ∀ (ins esc : Bool),
      hasFence l = false → hasFence (rtcAux ins esc false l) = false := by
  intro n
  induction n with
  | zero =>
    intro l hl ins esc h
    have hnil : l = [] := List.length_eq_zero.mp (Nat.le_zero.mp hl)
    subst hnil
    exact h
  | succ n ih =>
    intro l hl ins esc h
    match l with
    | [] => exact h
    | c :: t =>
      have hlt : t.length ≤ n := by
        simp only [List.length_cons] at hl
        omega
      obtain ⟨hfh, hft⟩ := hasFence_cons_false h
      have hltt := leadTicks_rtc_le n t hlt
      by_cases hesc : esc = true
      · subst hesc
        rw [rtcAux_esc ins false c t (by simp)]
        exact hasFence_cons_of (hltt ins false) (ih t hlt ins false hft) hfh
      · replace hesc : esc = false := by simpa using hesc
        subst hesc
        by_cases hbs : c = '\\'
        · subst hbs
          rw [rtcAux_bs ins false t (by simp)]
          exact hasFence_cons_of (hltt ins true) (ih t hlt ins true hft) hfh
        · by_cases hq : c = '"'
          · subst hq
            rw [rtcAux_quote ins false t (by simp)]
            exact hasFence_cons_of (hltt (!ins) false)
              (ih t hlt (!ins) false hft) hfh
          · by_cases hcm : ins = false ∧ c = ','
            · obtain ⟨hins, hc⟩ := hcm
              subst hins
              subst hc
              cases hdw : (t.dropWhile isWs).head? with
              | none =>
                rw [rtcAux_comma_none false t (by simp) hdw]
                exact hasFence_cons_of (hltt false false)
                  (ih t hlt false false hft) hfh
              | some nc =>
                by_cases hbr : nc = '}' ∨ nc = ']'
                · rw [rtcAux_comma_drop false t nc (by simp) hdw hbr,
                    rtcAux_skip_eq]
                  have hdwf : hasFence (t.dropWhile isWs) = false :=
                    hasFence_dropWhile hft
                  have hdwl : (t.dropWhile isWs).length ≤ n :=
                    le_trans (length_dropWhile_ws_le t) hlt
                  exact ih (t.dropWhile isWs) hdwl false false hdwf
                · rw [rtcAux_comma_emit false t nc (by simp) hdw hbr]
                  exact hasFence_cons_of (hltt false false)
                    (ih t hlt false false hft) hfh
            · rw [rtcAux_other ins false c t (by simp) hbs hq hcm]
              exact hasFence_cons_of (hltt ins false)
                (ih t hlt ins false hft) hfh

theorem rtc_mem :
    ∀ (n : ℕ) (l : List Char), l.length ≤ n → ∀ (ins esc : Bool) (c : Char),
      c ∈ rtcAux ins esc false l → c ∈ l := by
  intro n
  induction n with
  | zero =>
    intro l hl ins esc c h
    have hnil : l = [] := List.length_eq_zero.mp (Nat.le_zero.mp hl)
    subst hnil
    exact h
  | succ n ih =>
    intro l hl ins esc c h
    match l with
    | [] => exact h
    | a :: t =>
      have hlt : t.length ≤ n := by
        simp only [List.length_cons] at hl
        omega
      by_cases hesc : esc = true
      · subst hesc
        rw [rtcAux_esc ins false a t (by simp)] at h
        rcases List.mem_cons.mp h with h | h
        · simp [h]
        · simp [ih t hlt ins false c h]
      · replace hesc : esc = false := by simpa using hesc
        subst hesc
        by_cases hbs : a = '\\'
        · subst hbs
          rw [rtcAux_bs ins false t (by simp)] at h
          rcases List.mem_cons.mp h with h | h
          · simp [h]
          · simp [ih t hlt ins true c h]
        · by_cases hq : a = '"'
          · subst hq
            rw [rtcAux_quote ins false t (by simp)] at h
            rcases List.mem_cons.mp h with h | h
            · simp [h]
            · simp [ih t hlt (!ins) false c h]
          · by_cases hcm : ins = false ∧ a = ','
            · obtain ⟨hins, hc⟩ := hcm
              subst hins
              subst hc
              cases hdw : (t.dropWhile isWs).head? with
              | none =>
                rw [rtcAux_comma_none false t (by simp) hdw] at h
                rcases List.mem_cons.mp h with h | h
                · simp [h]
                · simp [ih t hlt false false c h]
              | some nc =>
                by_cases hbr : nc = '}' ∨ nc = ']'
                · rw [rtcAux_comma_drop false t nc (by simp) hdw hbr,
                    rtcAux_skip_eq] at h
                  have hdwl : (t.dropWhile isWs).length ≤ n :=
                    le_trans (length_dropWhile_ws_le t) hlt
                  have hmem := ih (t.dropWhile isWs) hdwl false false c h
                  obtain ⟨w, hw⟩ := (List.dropWhile_suffix isWs : _ <:+ t)
                  rw [← hw] at *
                  simp [hmem]
                · rw [rtcAux_comma_emit false t nc (by simp) hdw hbr] at h
                  rcases List.mem_cons.mp h with h | h
                  · simp [h]
                  · simp [ih t hlt false false c h]
            · rw [rtcAux_other ins false a t (by simp) hbs hq hcm] at h
              rcases List.mem_cons.mp h with h | h
              · simp [h]
              · simp [ih t hlt ins false c h]

theorem hasFence_sanitize {l : List Char} (hnul : nulChar ∉ l) :
    hasFence (sanitizeJsonText l) = false := by
  obtain ⟨h1f, -, -⟩ := stripFences_spec l
  have h2f : hasFence (jsTrim (stripFences l)) = false :=
    hasFence_within (jsTrim_within _) h1f
  have h3f : hasFence (braceStep (jsTrim (stripFences l))) = false :=
    hasFence_within (braceStep_within _) h2f
  have h4f : hasFence (normEol (braceStep (jsTrim (stripFences l)))) = false :=
    hasFence_normEol h3f
  have hnul4 : nulChar ∉ normEol (braceStep (jsTrim (stripFences l))) := by
    intro hmem
    rcases mem_normEol hmem with hmem | heq
    · exact hnul (mem_stripFences (mem_of_within (jsTrim_within _)
        (mem_of_within (braceStep_within _) hmem)))
    · exact absurd heq (by decide)
  have h5 : preRtc l = normEol (braceStep (jsTrim (stripFences l))) := by
    unfold preRtc
    rw [List.filter_eq_self.mpr]
    intro a ha
    simp only [Bool.not_eq_true', beq_eq_false_iff_ne, ne_eq]
    intro heq
    subst heq
    exact hnul4 ha
  have h6f : hasFence (rtcAux false false false (preRtc l)) = false := by
    rw [h5]
    exact hasFence_rtc (normEol (braceStep (jsTrim (stripFences l)))).length _
      le_rfl false false h4f
  unfold sanitizeJsonText removeTrailingCommas
  exact hasFence_within (jsTrim_within _) h6f

theorem ws_char_facts {c : Char} (h : isWs c = true) :
    c ≠ '"' ∧ c ≠ '\\' ∧ c ≠ ',' := by
  refine ⟨?_, ?_, ?_⟩ <;> rintro rfl <;> revert h <;> decide

theorem tcfAux_esc (ins : Bool) (c : Char) (t : List Char) :
    tcfAux ins true (c :: t) = tcfAux ins false t := by
  rw [tcfAux.eq_def]
  dsimp only
  rw [if_pos rfl]

theorem tcfAux_bs (ins : Bool) (t : List Char) :
    tcfAux ins false ('\\' :: t) = tcfAux ins true t := by
  rw [tcfAux.eq_def]
  dsimp only
  rw [if_neg (by simp), if_pos rfl]

theorem tcfAux_quote (ins : Bool) (t : List Char) :
    tcfAux ins false ('"' :: t) = tcfAux (!ins) false t := by
  rw [tcfAux.eq_def]
  dsimp only
  rw [if_neg (by simp), if_neg (by decide), if_pos rfl]

theorem tcfAux_comma_some (t : List Char) (nc : Char)
    (hnc : (t.dropWhile isWs).head? = some nc) :
    tcfAux false false (',' :: t) =
      (if nc = '}' ∨ nc = ']' then false else tcfAux false false t) := by
  rw [tcfAux.eq_def]
  dsimp only
  rw [if_neg (by simp), if_neg (by decide), if_neg (by decide),
    if_pos ⟨rfl, rfl⟩, hnc]

theorem tcfAux_comma_none (t : List Char)
    (hnc : (t.dropWhile isWs).head? = none) :
    tcfAux false false (',' :: t) = tcfAux false false t := by
  rw [tcfAux.eq_def]
  dsimp only
  rw [if_neg (by simp), if_neg (by decide), if_neg (by decide),
    if_pos ⟨rfl, rfl⟩, hnc]

theorem tcfAux_other (ins : Bool) (c : Char) (t : List Char)
    (hbs : c ≠ '\\') (hq : c ≠ '"') (hcm : ¬(ins = false ∧ c = ',')) :
    tcfAux ins false (c :: t) = tcfAux ins false t := by
  rw [tcfAux.eq_def]
  dsimp only
  rw [if_neg (by simp), if_neg hbs, if_neg hq, if_neg hcm]

theorem ndcAux_esc (ins : Bool) (c : Char) (t : List Char) :
    ndcAux ins true (c :: t) = ndcAux ins false t := by
  rw [ndcAux.eq_def]
  dsimp only
  rw [if_pos rfl]

theorem ndcAux_bs (ins : Bool) (t : List Char) :
    ndcAux ins false ('\\' :: t) = ndcAux ins true t := by
  rw [ndcAux.eq_def]
  dsimp only
  rw [if_neg (by simp), if_pos rfl]

theorem ndcAux_quote (ins : Bool) (t : List Char) :
    ndcAux ins false ('"' :: t) = ndcAux (!ins) false t := by
  rw [ndcAux.eq_def]
  dsimp only
  rw [if_neg (by simp), if_neg (by decide), if_pos rfl]

theorem ndcAux_comma_some (t : List Char) (nc : Char)
    (hnc : (t.dropWhile isWs).head? = some nc) :
    ndcAux false false (',' :: t) =
      (if nc = ',' then false else ndcAux false false t) := by
  rw [ndcAux.eq_def]
  dsimp only
  rw [if_neg (by simp), if_neg (by decide), if_neg (by decide),
    if_pos ⟨rfl, rfl⟩, hnc]

theorem ndcAux_comma_none (t : List Char)
    (hnc : (t.dropWhile isWs).head? = none) :
    ndcAux false false (',' :: t) = ndcAux false false t := by
  rw [ndcAux.eq_def]
  dsimp only
  rw [if_neg (by simp), if_neg (by decide), if_neg (by decide),
    if_pos ⟨rfl, rfl⟩, hnc]

theorem ndcAux_other (ins : Bool) (c : Char) (t : List Char)
    (hbs : c ≠ '\\') (hq : c ≠ '"') (hcm : ¬(ins = false ∧ c = ',')) :
    ndcAux ins false (c :: t) = ndcAux ins false t := by
  rw [ndcAux.eq_def]
  dsimp only
  rw [if_neg (by simp), if_neg hbs, if_neg hq, if_neg hcm]

theorem oscAux_esc (ins : Bool) (c : Char) (t : List Char) :
    oscAux ins true (c :: t) = oscAux ins false t := by
  rw [oscAux.eq_def]
  dsimp only
  rw [if_pos rfl]

theorem oscAux_bs (ins : Bool) (t : List Char) :
    oscAux ins false ('\\' :: t) = oscAux ins true t := by
  rw [oscAux.eq_def]
  dsimp only
  rw [if_neg (by simp), if_pos rfl]

theorem oscAux_quote (ins : Bool) (t : List Char) :
    oscAux ins false ('"' :: t) = oscAux (!ins) false t := by
  rw [oscAux.eq_def]
  dsimp only
  rw [if_neg (by simp), if_neg (by decide), if_pos rfl]

theorem oscAux_comma (t : List Char) :
    oscAux false false (',' :: t) = false := by
  rw [oscAux.eq_def]
  dsimp only
  rw [if_neg (by simp), if_neg (by decide), if_neg (by decide),
    if_pos ⟨rfl, rfl⟩]

theorem oscAux_other (ins : Bool) (c : Char) (t : List Char)
    (hbs : c ≠ '\\') (hq : c ≠ '"') (hcm : ¬(ins = false ∧ c = ',')) :
    oscAux ins false (c :: t) = oscAux ins false t := by
  rw [oscAux.eq_def]
  dsimp only
  rw [if_neg (by simp), if_neg hbs, if_neg hq, if_neg hcm]

theorem osc_rtc_id (l : List Char) :
    ∀ ins esc, oscAux ins esc l = true → rtcAux ins esc false l = l := by
  induction l with
  | nil => intro ins esc _; rfl
  | cons c t ih =>
    intro ins esc h
    by_cases hesc : esc = true
    · subst hesc
      rw [oscAux_esc] at h
      rw [rtcAux_esc ins false c t (by simp), ih ins false h]
    · replace hesc : esc = false := by simpa using hesc
      subst hesc
      by_cases hbs : c = '\\'
      · subst hbs
        rw [oscAux_bs] at h
        rw [rtcAux_bs ins false t (by simp), ih ins true h]
      · by_cases hq : c = '"'
        · subst hq
          rw [oscAux_quote] at h
          rw [rtcAux_quote ins false t (by simp), ih (!ins) false h]
        · by_cases hcm : ins = false ∧ c = ','
          · obtain ⟨hins, hc⟩ := hcm
            subst hins
            subst hc
            rw [oscAux_comma] at h
            cases h
          · rw [oscAux_other ins c t hbs hq hcm] at h
            rw [rtcAux_other ins false c t (by simp) hbs hq hcm,
              ih ins false h]

theorem tcf_rtc_id (l : List Char) :
    ∀ ins esc, tcfAux ins esc l = true → rtcAux ins esc false l = l := by
  induction l with
  | nil => intro ins esc _; rfl
  | cons c t ih =>
    intro ins esc h
    by_cases hesc : esc = true
    · subst hesc
      rw [tcfAux_esc] at h
      rw [rtcAux_esc ins false c t (by simp), ih ins false h]
    · replace hesc : esc = false := by simpa using hesc
      subst hesc
      by_cases hbs : c = '\\'
      · subst hbs
        rw [tcfAux_bs] at h
        rw [rtcAux_bs ins false t (by simp), ih ins true h]
      · by_cases hq : c = '"'
        · subst hq
          rw [tcfAux_quote] at h
          rw [rtcAux_quote ins false t (by simp), ih (!ins) false h]
        · by_cases hcm : ins = false ∧ c = ','
          · obtain ⟨hins, hc⟩ := hcm
            subst hins
            subst hc
            cases hdw : (t.dropWhile isWs).head? with
            | none =>
              rw [tcfAux_comma_none t hdw] at h
              rw [rtcAux_comma_none false t (by simp) hdw, ih false false h]
            | some nc =>
              rw [tcfAux_comma_some t nc hdw] at h
              by_cases hbr : nc = '}' ∨ nc = ']'
              · rw [if_pos hbr] at h
                cases h
              · rw [if_neg hbr] at h
                rw [rtcAux_comma_emit false t nc (by simp) hdw hbr,
                  ih false false h]
          · rw [tcfAux_other ins c t hbs hq hcm] at h
            rw [rtcAux_other ins false c t (by simp) hbs hq hcm,
              ih ins false h]

theorem osc_all_ws (t : List Char) (h : ∀ c ∈ t, isWs c = true) :
    oscAux false false t = true := by
  induction t with
  | nil => rfl
  | cons c r ih =>
    obtain ⟨hq, hbs, hcm⟩ := ws_char_facts (h c (by simp))
    rw [oscAux_other false c r hbs hq (by simp [hcm])]
    exact ih (fun d hd => h d (by simp [hd]))

theorem ndc_dropWhile (t : List Char) :
    ndcAux false false (t.dropWhile isWs) = ndcAux false false t := by
  induction t with
  | nil => rfl
  | cons c r ih =>
    by_cases hws : isWs c = true
    · obtain ⟨hq, hbs, hcm⟩ := ws_char_facts hws
      rw [List.dropWhile_cons_of_pos hws,
        ndcAux_other false c r hbs hq (by simp [hcm])]
      exact ih
    · rw [List.dropWhile_cons_of_neg (by simpa using hws)]

theorem tcf_dropWhile (t : List Char) :
    tcfAux false false (t.dropWhile isWs) = tcfAux false false t := by
  induction t with
  | nil => rfl
  | cons c r ih =>
    by_cases hws : isWs c = true
    · obtain ⟨hq, hbs, hcm⟩ := ws_char_facts hws
      rw [List.dropWhile_cons_of_pos hws,
        tcfAux_other false c r hbs hq (by simp [hcm])]
      exact ih
    · rw [List.dropWhile_cons_of_neg (by simpa using hws)]

theorem rtc_ws_front (w : List Char) (x : List Char)
    (h : ∀ c ∈ w, isWs c = true) :
    rtcAux false false false (w ++ x) = w ++ rtcAux false false false x := by
  induction w with
  | nil => rfl
  | cons c r ih =>
    obtain ⟨hq, hbs, hcm⟩ := ws_char_facts (h c (by simp))
    rw [List.cons_append,
      rtcAux_other false false c (r ++ x) (by simp) hbs hq (by simp [hcm]),
      ih (fun d hd => h d (by simp [hd])), List.cons_append]

theorem rtc_head_noncomma (c : Char) (t : List Char) (hcm : c ≠ ',') :
    ∃ rest, rtcAux false false false (c :: t) = c :: rest := by
  by_cases hbs : c = '\\'
  · subst hbs
    exact ⟨_, rtcAux_bs false false t (by simp)⟩
  · by_cases hq : c = '"'
    · subst hq
      exact ⟨_, rtcAux_quote false false t (by simp)⟩
    · exact ⟨_, rtcAux_other false false c t (by simp) hbs hq (by simp [hcm])⟩

theorem dropWhile_append_all_ws (w z : List Char)
    (h : ∀ c ∈ w, isWs c = true) :
    (w ++ z).dropWhile isWs = z.dropWhile isWs := by
  induction w with
  | nil => rfl
  | cons c r ih =>
    rw [List.cons_append, List.dropWhile_cons_of_pos (h c (by simp))]
    exact ih (fun d hd => h d (by simp [hd]))

theorem tcf_rtc :
    ∀ (n : ℕ) (l : List Char), l.length ≤ n → ∀ (ins esc : Bool),
      ndcAux ins esc l = true →
      tcfAux ins esc (rtcAux ins esc false l) = true := by
  intro n
  induction n with
  | zero =>
    intro l hl ins esc _
    have hnil : l = [] := List.length_eq_zero.mp (Nat.le_zero.mp hl)
    subst hnil
    rfl
  | succ n ih =>
    intro l hl ins esc h
    match l with
    | [] => rfl
    | c :: t =>
      have hlt : t.length ≤ n := by
        simp only [List.length_cons] at hl
        omega
      by_cases hesc : esc = true
      · subst hesc
        rw [ndcAux_esc] at h
        rw [rtcAux_esc ins false c t (by simp), tcfAux_esc]
        exact ih t hlt ins false h
      · replace hesc : esc = false := by simpa using hesc
        subst hesc
        by_cases hbs : c = '\\'
        · subst hbs
          rw [ndcAux_bs] at h
          rw [rtcAux_bs ins false t (by simp), tcfAux_bs]
          exact ih t hlt ins true h
        · by_cases hq : c = '"'
          · subst hq
            rw [ndcAux_quote] at h
            rw [rtcAux_quote ins false t (by simp), tcfAux_quote]
            exact ih t hlt (!ins) false h
          · by_cases hcm : ins = false ∧ c = ','
            · obtain ⟨hins, hc⟩ := hcm
              subst hins
              subst hc
              cases hdw : (t.dropWhile isWs).head? with
              | none =>
                rw [ndcAux_comma_none t hdw] at h
                have hall : ∀ d ∈ t, isWs d = true := by
                  have hdnil : t.dropWhile isWs = [] :=
                    List.head?_eq_none_iff.mp hdw
                  intro d hd
                  exact List.dropWhile_eq_nil_iff.mp hdnil d hd
                have hrt : rtcAux false false false t = t :=
                  osc_rtc_id t false false (osc_all_ws t hall)
                rw [rtcAux_comma_none false t (by simp) hdw, hrt,
                  tcfAux_comma_none t hdw, ← hrt]
                exact ih t hlt false false h
              | some nc =>
                rw [ndcAux_comma_some t nc hdw] at h
                by_cases hcomma : nc = ','
                · rw [if_pos hcomma] at h
                  cases h
                · rw [if_neg hcomma] at h
                  by_cases hbr : nc = '}' ∨ nc = ']'
                  · rw [rtcAux_comma_drop false t nc (by simp) hdw hbr,
                      rtcAux_skip_eq]
                    have hdwl : (t.dropWhile isWs).length ≤ n :=
                      le_trans (length_dropWhile_ws_le t) hlt
                    have hnd : ndcAux false false (t.dropWhile isWs) = true := by
                      rw [ndc_dropWhile]
                      exact h
                    exact ih (t.dropWhile isWs) hdwl false false hnd
                  · rw [rtcAux_comma_emit false t nc (by simp) hdw hbr]
                    cases hdw2 : t.dropWhile isWs with
                    | nil =>
                      rw [hdw2] at hdw
                      cases hdw
                    | cons nc' t2 =>
                      rw [hdw2] at hdw
                      simp only [List.head?_cons, Option.some.injEq] at hdw
                      subst hdw
                      obtain ⟨rest, hrest⟩ := rtc_head_noncomma nc' t2 hcomma
                      have hwsrun : ∀ d ∈ t.takeWhile isWs, isWs d = true :=
                        fun d hd => List.mem_takeWhile_imp hd
                      have hsplit : t = t.takeWhile isWs ++ (nc' :: t2) := by
                        rw [← hdw2, List.takeWhile_append_dropWhile]
                      have hout : rtcAux false false false t =
                          t.takeWhile isWs ++ (nc' :: rest) := by
                        conv_lhs => rw [hsplit]
                        rw [rtc_ws_front _ _ hwsrun, hrest]
                      have hncws : isWs nc' = false :=
                        dropWhile_head_not isWs t nc' (by rw [hdw2]; rfl)
                      have hlook :
                          ((rtcAux false false false t).dropWhile isWs).head? =
                            some nc' := by
                        rw [hout, dropWhile_append_all_ws _ _ hwsrun,
                          List.dropWhile_cons_of_neg (by simp [hncws])]
                        rfl
                      rw [tcfAux_comma_some _ nc' hlook, if_neg hbr]
                      exact ih t hlt false false h
            · rw [ndcAux_other ins c t hbs hq hcm] at h
              rw [rtcAux_other ins false c t (by simp) hbs hq hcm,
                tcfAux_other ins c _ hbs hq hcm]
              exact ih t hlt ins false h

theorem tcf_append_ws (z : List Char) :
    ∀ (ins esc : Bool) (u : List Char), (∀ c ∈ u, isWs c = true) →
      tcfAux ins esc (z ++ u) = true → tcfAux ins esc z = true := by
  induction z with
  | nil => intro ins esc u _ _; rfl
  | cons c z' ih =>
    intro ins esc u hu h
    rw [List.cons_append] at h
    by_cases hesc : esc = true
    · subst hesc
      rw [tcfAux_esc] at h ⊢
      exact ih ins false u hu h
    · replace hesc : esc = false := by simpa using hesc
      subst hesc
      by_cases hbs : c = '\\'
      · subst hbs
        rw [tcfAux_bs] at h ⊢
        exact ih ins true u hu h
      · by_cases hq : c = '"'
        · subst hq
          rw [tcfAux_quote] at h ⊢
          exact ih (!ins) false u hu h
        · by_cases hcm : ins = false ∧ c = ','
          · obtain ⟨hins, hc⟩ := hcm
            subst hins
            subst hc
            cases hdw : (z'.dropWhile isWs).head? with
            | none =>
              have hznil : z'.dropWhile isWs = [] :=
                List.head?_eq_none_iff.mp hdw
              have hdwu : (z' ++ u).dropWhile isWs = [] := by
                rw [List.dropWhile_append, hznil]
                simp only [List.isEmpty_nil, if_true]
                exact List.dropWhile_eq_nil_iff.mpr hu
              rw [tcfAux_comma_none _ (by rw [hdwu]; rfl)] at h
              rw [tcfAux_comma_none z' hdw]
              exact ih false false u hu h
            | some nc =>
              cases hz2 : z'.dropWhile isWs with
              | nil =>
                rw [hz2] at hdw
                cases hdw
              | cons nc' t2 =>
                rw [hz2] at hdw
                simp only [List.head?_cons, Option.some.injEq] at hdw
                subst hdw
                have hdwu : (z' ++ u).dropWhile isWs = nc' :: (t2 ++ u) := by
                  rw [List.dropWhile_append, hz2]
                  simp
                rw [tcfAux_comma_some _ nc' (by rw [hdwu]; rfl)] at h
                rw [tcfAux_comma_some z' nc' (by rw [hz2]; rfl)]
                by_cases hbr : nc' = '}' ∨ nc' = ']'
                · rw [if_pos hbr] at h
                  cases h
                · rw [if_neg hbr] at h ⊢
                  exact ih false false u hu h
          · rw [tcfAux_other ins c _ hbs hq hcm] at h
            rw [tcfAux_other ins c z' hbs hq hcm]
            exact ih ins false u hu h

theorem tcf_jsTrim (y : List Char) (h : trailingCommaFree y = true) :
    trailingCommaFree (jsTrim y) = true := by
  unfold trailingCommaFree at h ⊢
  unfold jsTrim
  obtain ⟨hsplit, hallws⟩ := dropTrailingWs_split (y.dropWhile isWs)
  apply tcf_append_ws _ false false _ hallws
  rw [← hsplit, tcf_dropWhile]
  exact h

/-- C8 counterexample: the claim as stated fails on concrete inputs. A
backtick, NUL, backtick, backtick input sanitizes to a fence marker
(the NUL strip joins the backticks), and a double comma before a closing
brace sanitizes to a remaining trailing comma before that brace. -/
theorem claim_C8_counterexample :
    hasFence (sanitizeJsonText [bt, nulChar, bt, bt]) = true ∧
    sanitizeJsonText [',', ',', '}'] = [',', '}'] :=
  ⟨by decide, by decide⟩

/-- C8 (amended): for NUL-free input the sanitizer's output has no fence
marker; when the comma-remover's input (the sanitizer's intermediate
text) has no out-of-string comma directly followed, after whitespace, by
another comma, the output has no out-of-string comma followed, after
whitespace, by a closing brace or bracket; and the comma scan is
string-literal aware: a text whose commas all lie inside string literals
is returned unchanged, in particular one with a comma next to an escaped
quote. -/
theorem claim_C8 (l : List Char) (hnul : nulChar ∉ l) :
    hasFence (sanitizeJsonText l) = false ∧
    (noDoubleComma (preRtc l) = true →
      trailingCommaFree (sanitizeJsonText l) = true) ∧
    (∀ x : List Char, commasInStrings x = true →
      removeTrailingCommas x = x) ∧
    removeTrailingCommas ['"', 'a', '\\', '"', '}', ',', ' ', 'b', '"'] =
      ['"', 'a', '\\', '"', '}', ',', ' ', 'b', '"'] := by
  refine ⟨hasFence_sanitize hnul, fun hndc => ?_,
    fun x hx => osc_rtc_id x false false hx, by decide⟩
  unfold sanitizeJsonText removeTrailingCommas
  exact tcf_jsTrim _ (tcf_rtc (preRtc l).length _ le_rfl false false hndc)

theorem claim_C8_witness :
    hasFence (sanitizeJsonText ['{', 'a', '}']) = false ∧
    trailingCommaFree (sanitizeJsonText ['{', 'a', '}']) = true ∧
    removeTrailingCommas ['"', ',', '"'] = ['"', ',', '"'] :=
  ⟨(claim_C8 ['{', 'a', '}'] (by decide)).1,
   (claim_C8 ['{', 'a', '}'] (by decide)).2.1 (by decide),
   (claim_C8 ['{', 'a', '}'] (by decide)).2.2.1 ['"', ',', '"'] (by decide)⟩

theorem stripFences_id {l : List Char} (h : hasFence l = false) :
    stripFences l = l := by
  induction l using stripFences.induct with
  | case1 => rfl
  | case2 c h1 h2 h3 h4 h5 h6 t7 hj ih =>
    exfalso
    have h3l := fenceJsonHead_leadTicks _ hj
    have hfh := (hasFence_cons_false h).1
    rw [fenceHead_eq] at hfh
    simp only [decide_eq_false_iff_not] at hfh
    exact hfh h3l
  | case3 c t hj hnone =>
    exfalso
    have h3l := fenceJsonHead_leadTicks _ hj
    have hfh := (hasFence_cons_false h).1
    rw [fenceHead_eq] at hfh
    simp only [decide_eq_false_iff_not] at hfh
    exact hfh h3l
  | case4 c h1 h2 t3 hnj hf ih =>
    exact absurd hf (by simpa using (hasFence_cons_false h).1.symm ▸
      (hasFence_cons_false h).1)
  | case5 c t hnj hf hnone =>
    exact absurd hf (by simp [(hasFence_cons_false h).1])
  | case6 c t hnj hnf ih =>
    have hst : stripFences (c :: t) = c :: stripFences t := by
      rw [stripFences.eq_def]
      dsimp only
      rw [if_neg hnj, if_neg hnf]
    rw [hst, ih (hasFence_cons_false h).2]

theorem normEol_id {l : List Char} (h : crChar ∉ l) : normEol l = l := by
  induction l using normEol.induct with
  | case1 => rfl
  | case2 t ih =>
    exact absurd (by simp : crChar ∈ crChar :: lfChar :: t) h
  | case3 d t hd ih =>
    exact absurd (by simp : crChar ∈ crChar :: d :: t) h
  | case4 c d t hc ih =>
    rw [show normEol (c :: d :: t) = c :: normEol (d :: t) from by
      simp [normEol, hc]]
    rw [ih (fun hm => h (by simp [hm]))]
  | case5 =>
    exact absurd (by simp : crChar ∈ [crChar]) h
  | case6 c hc =>
    simp [normEol, hc]

theorem cr_not_mem_sanitize (x : List Char) :
    crChar ∉ sanitizeJsonText x := by
  intro hmem
  unfold sanitizeJsonText removeTrailingCommas at hmem
  have h1 : crChar ∈ rtcAux false false false (preRtc x) :=
    mem_of_within (jsTrim_within _) hmem
  have h2 : crChar ∈ preRtc x :=
    rtc_mem (preRtc x).length _ le_rfl false false crChar h1
  unfold preRtc at h2
  have h3 : crChar ∈ normEol (braceStep (jsTrim (stripFences x))) :=
    List.mem_of_mem_filter h2
  exact cr_not_mem_normEol _ h3

theorem nul_not_mem_sanitize (x : List Char) :
    nulChar ∉ sanitizeJsonText x := by
  intro hmem
  unfold sanitizeJsonText removeTrailingCommas at hmem
  have h1 : nulChar ∈ rtcAux false false false (preRtc x) :=
    mem_of_within (jsTrim_within _) hmem
  have h2 : nulChar ∈ preRtc x :=
    rtc_mem (preRtc x).length _ le_rfl false false nulChar h1
  unfold preRtc at h2
  have h3 := List.of_mem_filter h2
  simp at h3

theorem sanitize_trimmed (x : List Char) :
    jsTrim (sanitizeJsonText x) = sanitizeJsonText x := by
  unfold sanitizeJsonText
  exact jsTrim_idem _

/-- C9 counterexample: `sanitizeJsonText c9input` is an already-sanitized
valid JSON object string, yet sanitizing it again changes it (the fence
marker hidden inside its string literal is stripped). -/
theorem claim_C9_counterexample :
    isJsonObjectString (sanitizeJsonText c9input) = true ∧
    sanitizeJsonText (sanitizeJsonText c9input) ≠ sanitizeJsonText c9input :=
  ⟨by decide, by decide⟩

/-- C9 (amended): the sanitizer is idempotent on every output of the
sanitizer that contains no fence marker, starts with an opening brace,
and contains no out-of-string comma followed (after whitespace) by a
closing brace or bracket. JSON validity alone does not suffice, since a
valid JSON object string may hide a fence marker inside a string
literal. -/
theorem claim_C9 (x : List Char)
    (h1 : hasFence (sanitizeJsonText x) = false)
    (h2 : (sanitizeJsonText x).head? = some '{')
    (h3 : trailingCommaFree (sanitizeJsonText x) = true) :
    sanitizeJsonText (sanitizeJsonText x) = sanitizeJsonText x := by
  have hfs : stripFences (sanitizeJsonText x) = sanitizeJsonText x :=
    stripFences_id h1
  have hts : jsTrim (sanitizeJsonText x) = sanitizeJsonText x :=
    sanitize_trimmed x
  have hbst : braceStep (sanitizeJsonText x) = sanitizeJsonText x := by
    unfold braceStep
    rw [if_pos h2]
  have hnes : normEol (sanitizeJsonText x) = sanitizeJsonText x :=
    normEol_id (cr_not_mem_sanitize x)
  have hfls : (sanitizeJsonText x).filter (fun c => !(c == nulChar)) =
      sanitizeJsonText x := by
    rw [List.filter_eq_self]
    intro a ha
    simp only [Bool.not_eq_true', beq_eq_false_iff_ne, ne_eq]
    intro heq
    subst heq
    exact nul_not_mem_sanitize x ha
  have hrtc : rtcAux false false false (sanitizeJsonText x) =
      sanitizeJsonText x :=
    tcf_rtc_id _ false false h3
  conv_lhs =>
    rw [sanitizeJsonText, removeTrailingCommas, preRtc, hfs, hts, hbst, hnes,
      hfls, hrtc, hts]

theorem claim_C9_witness :
    sanitizeJsonText (sanitizeJsonText
        ['{', '"', 'a', '"', ':', '"', 'b', '"', '}']) =
      sanitizeJsonText ['{', '"', 'a', '"', ':', '"', 'b', '"', '}'] :=
  claim_C9 ['{', '"', 'a', '"', ':', '"', 'b', '"', '}']
    (by decide) (by decide) (by decide)
